import Mathlib

/-!
Shallow embedding of the repository's two components.

* `ExtendibleHashTable` (src/container/hash/extendible_hash_table.cpp and
  its header): a directory-based extendible hash table.  Buckets live in an
  arena (a list); a directory slot stores the arena index of its bucket,
  mirroring the C++ `std::vector<std::shared_ptr<Bucket>>` where pointer
  identity becomes arena-index identity.  The directory vector is modelled
  as its size (`dirSize`, mirroring `dir_.size()`) together with its
  contents function (`dir`).  The hash function is a parameter (the
  `std::hash` instantiation).
* `LRUKReplacer` (the LRU-K replacer translation unit): two queues
  (`new_frame_` for below-K frames, `cache_frame_` for at/above-K frames),
  per-frame access count, access-time history and evictability flag.
  `std::unordered_map` fields with default-constructed values become total
  functions with default values.  The iterator maps `new_locate_` /
  `cache_locate_` are positional bookkeeping with no independent content and
  are represented by erasing the (unique) matching element.
-/

/-- Pointwise update of a map represented as a function. -/
def upd (m : Nat → α) (x : Nat) (v : α) : Nat → α :=
  fun y => if y = x then v else m y

namespace EHT

/-- A bucket: local depth plus the (key, value) list, mirroring `Bucket`.
The capacity (`size_`) is the table-wide `bucket_size_` and is passed in
explicitly where needed. -/
structure Bucket (K V : Type) where
  depth : Nat
  items : List (K × V)
deriving Repr

/-- In-place update of the first pair whose key matches, mirroring the scan
in `Bucket::Insert` that assigns `item.second = value` at the first hit.
Returns `none` when no key matches. -/
def updateFirst [DecidableEq K] (k : K) (v : V) : List (K × V) → Option (List (K × V))
  | [] => none
  | p :: l =>
    if p.1 = k then some ((p.1, v) :: l)
    else (updateFirst k v l).map (p :: ·)

/-- Erase the first pair whose key matches, mirroring `Bucket::Remove`. -/
def removeFirst [DecidableEq K] (k : K) : List (K × V) → Option (List (K × V))
  | [] => none
  | p :: l =>
    if p.1 = k then some l
    else (removeFirst k l).map (p :: ·)

/-- Mirrors `Bucket::Find`: first pair with a matching key. -/
def bucketFind [DecidableEq K] (b : Bucket K V) (k : K) : Option V :=
  (b.items.find? (fun p => decide (p.1 = k))).map (·.2)

/-- Mirrors `Bucket::Insert`: update in place if the key exists; otherwise fail when
the bucket is full (`list_.size() == size_`), else append.  `none` plays the
role of returning `false`. -/
def bucketInsert [DecidableEq K] (cap : Nat) (b : Bucket K V) (k : K) (v : V) :
    Option (Bucket K V) :=
  match updateFirst k v b.items with
  | some l => some { b with items := l }
  | none =>
    if b.items.length = cap then none
    else some { b with items := b.items ++ [(k, v)] }

/-- The extendible hash table state.  `dir` is meaningful on slots
`< dirSize`; `dirSize` mirrors `dir_.size()`.  Arena indices play the role
of `shared_ptr` identities. -/
structure ExtendibleHashTable (K V : Type) where
  globalDepth : Nat
  bucketSize : Nat
  numBuckets : Nat
  dirSize : Nat
  dir : Nat → Nat
  arena : List (Bucket K V)

/-- The constant `kMaxGlobalDepth` from the header. -/
def kMaxGlobalDepth : Nat := 20

/-- The constructor: global depth 0, one empty bucket. -/
def einit (bsz : Nat) : ExtendibleHashTable K V :=
  { globalDepth := 0, bucketSize := bsz, numBuckets := 1, dirSize := 1,
    dir := fun _ => 0, arena := [⟨0, []⟩] }

/-- Dereference an arena index (a `shared_ptr` dereference). -/
def getBucket (s : ExtendibleHashTable K V) (i : Nat) : Bucket K V :=
  s.arena.getD i ⟨0, []⟩

/-- Mirrors `IndexOf`: low `global_depth_` bits of the hash. -/
def indexOf (hash : K → Nat) (g : Nat) (k : K) : Nat :=
  hash k % 2 ^ g

/-- Mirrors `Find`. -/
def findE [DecidableEq K] (hash : K → Nat) (s : ExtendibleHashTable K V) (k : K) :
    Option V :=
  bucketFind (getBucket s (s.dir (indexOf hash s.globalDepth k))) k

/-- Mirrors `Remove`. -/
def removeE [DecidableEq K] (hash : K → Nat) (s : ExtendibleHashTable K V) (k : K) :
    Bool × ExtendibleHashTable K V :=
  match removeFirst k (getBucket s (s.dir (indexOf hash s.globalDepth k))).items with
  | some l =>
    (true,
      { s with
        arena := s.arena.set (s.dir (indexOf hash s.globalDepth k))
                   ({ getBucket s (s.dir (indexOf hash s.globalDepth k)) with
                      items := l }) })
  | none => (false, s)

/-- The redistribution loop inside `Insert`'s split: walk the old bucket's
items in order; an item whose index under the current global depth differs
from `i` (the inserted key's slot, computed at the top of the loop
iteration) is inserted into the new bucket (return value ignored, as in the
source) and erased from the old list.  Returns (items kept in the old
bucket, final new bucket). -/
def redistribAux (hash : K → Nat) [DecidableEq K] (g i cap : Nat) :
    List (K × V) → Bucket K V → List (K × V) × Bucket K V
  | [], nb => ([], nb)
  | p :: rest, nb =>
    if indexOf hash g p.1 ≠ i then
      redistribAux hash g i cap rest ((bucketInsert cap nb p.1 p.2).getD nb)
    else
      let r := redistribAux hash g i cap rest nb
      (p :: r.1, r.2)

/-- Directory doubling inside `Insert`: `global_depth_++`, resize the
directory to twice its size and copy every lower slot's reference into the
matching upper slot. -/
def doubleDir (s : ExtendibleHashTable K V) : ExtendibleHashTable K V :=
  { s with globalDepth := s.globalDepth + 1,
           dirSize := s.dirSize * 2,
           dir := fun j =>
             if j < s.dirSize then s.dir j else s.dir (j - s.dirSize) }

/-- The split proper: increment the full bucket's depth to `d'`, create the
new bucket at depth `d'`, move the items whose current-depth index differs
from `i` (the inserted key's slot, computed at the top of the loop
iteration), and repoint every directory slot that referenced `bid` and has
bit `d' - 1` set. -/
def applySplit (hash : K → Nat) [DecidableEq K] (s1 : ExtendibleHashTable K V)
    (i bid : Nat) (b : Bucket K V) : ExtendibleHashTable K V :=
  let d' := b.depth + 1
  let r := redistribAux hash s1.globalDepth i s1.bucketSize b.items ⟨d', []⟩
  let newBid := s1.arena.length
  { s1 with
    numBuckets := s1.numBuckets + 1,
    arena := (s1.arena.set bid ⟨d', r.1⟩) ++ [r.2],
    dir := fun j =>
      if j < s1.dirSize ∧ s1.dir j = bid ∧ Nat.testBit j (d' - 1) then newBid
      else s1.dir j }

/-- One full-bucket iteration of `Insert` after the overflow check: double
the directory when the bucket's depth equals the global depth, then split.
-/
def splitStep (hash : K → Nat) [DecidableEq K] (s : ExtendibleHashTable K V)
    (i bid : Nat) (b : Bucket K V) : ExtendibleHashTable K V :=
  applySplit hash (if b.depth = s.globalDepth then doubleDir s else s) i bid b

/-- Outcome of one `Insert` call: normal return, the `overflow_error` throw,
or fuel exhaustion (the source's `while (true)` can loop forever on
pathological full-collision inputs; the depth cap bounds real executions,
and fuel bounds the embedding). -/
inductive InsResult | ok | overflow | fuelOut
deriving DecidableEq, Repr

/-- Mirrors `Insert`'s `while (true)` loop, fuelled.  Each iteration mirrors the
source: try the bucket insert; on failure, if the full bucket's depth equals
the global depth and the depth cap is reached, throw; otherwise split (with
a directory doubling first when the depth equals the global depth) and
retry. -/
def insertLoop (hash : K → Nat) [DecidableEq K] :
    Nat → ExtendibleHashTable K V → K → V → InsResult × ExtendibleHashTable K V
  | 0, s, _, _ => (.fuelOut, s)
  | fuel + 1, s, k, v =>
    let i := indexOf hash s.globalDepth k
    let bid := s.dir i
    let b := getBucket s bid
    match bucketInsert s.bucketSize b k v with
    | some b' => (.ok, { s with arena := s.arena.set bid b' })
    | none =>
      if b.depth = s.globalDepth ∧ kMaxGlobalDepth ≤ s.globalDepth then
        (.overflow, s)
      else insertLoop hash fuel (splitStep hash s i bid b) k v

/-- One `Insert` call with generous fuel: a terminating source run needs at
most `kMaxGlobalDepth + 1` iterations, because the target bucket's depth
strictly increases at each split and is capped. -/
def insertE (hash : K → Nat) [DecidableEq K] (s : ExtendibleHashTable K V)
    (k : K) (v : V) : InsResult × ExtendibleHashTable K V :=
  insertLoop hash 64 s k v

/-- States reachable from construction through the public mutators (with any
fuel bound on the insert loop; `Find` and the introspection getters do not
mutate). -/
inductive EReach (hash : K → Nat) [DecidableEq K] (bsz : Nat) :
    ExtendibleHashTable K V → Prop
  | init : EReach hash bsz (einit bsz)
  | insert (fuel : Nat) (k : K) (v : V) {s : ExtendibleHashTable K V} :
      EReach hash bsz s → EReach hash bsz (insertLoop hash fuel s k v).2
  | remove (k : K) {s : ExtendibleHashTable K V} :
      EReach hash bsz s → EReach hash bsz (removeE hash s k).2

/-- The directory invariant of the spec: the directory length equals
`2 ^ global_depth`, every slot holds a valid bucket reference, and every
referenced bucket's local depth is at most the global depth. -/
def dirInv (s : ExtendibleHashTable K V) : Prop :=
  s.dirSize = 2 ^ s.globalDepth ∧
  ∀ j < s.dirSize, s.dir j < s.arena.length ∧
    (getBucket s (s.dir j)).depth ≤ s.globalDepth

end EHT

/-- Result of a replacer operation that can throw: `ok` = normal return,
`err` = a thrown exception (the state at the throw point is kept; in both
throwing paths the throw happens before any mutation). -/
inductive RAResult | ok | err
deriving DecidableEq, Repr

/-- The LRU-K replacer state.  `newFrame` is `new_frame_` (head of the list
= front of the `std::list`, where first-ever accesses are pushed);
`cacheFrame` is `cache_frame_`, a list of (frame, k-th-access timestamp)
pairs kept sorted ascending by timestamp. -/
structure LRUKReplacer where
  numFrames : Nat
  k : Nat
  maxSize : Nat
  currSize : Nat
  ts : Nat
  newFrame : List Nat
  cacheFrame : List (Nat × Nat)
  cnt : Nat → Nat
  hist : Nat → List Nat
  evictable : Nat → Bool

namespace LRUKReplacer

/-- The constructor: `replacer_size_ = num_frames`, `max_size_ = num_frames`,
counters zero, maps empty/default. -/
def rinit (nf kk : Nat) : LRUKReplacer :=
  { numFrames := nf, k := kk, maxSize := nf, currSize := 0, ts := 0,
    newFrame := [], cacheFrame := [], cnt := fun _ => 0,
    hist := fun _ => [], evictable := fun _ => false }

/-- Mirrors `std::upper_bound` plus `insert` with comparator `CmpTimestamp`
(strictly-less on the timestamp component): insert `v` before the first
entry whose timestamp is strictly greater. -/
def insertCache (v : Nat × Nat) : List (Nat × Nat) → List (Nat × Nat)
  | [] => [v]
  | p :: l => if v.2 < p.2 then v :: p :: l else p :: insertCache v l

/-- Erase the entry at `cache_locate_[f]`: with the representation invariant
this is the unique entry whose frame is `f`; erase the first such. -/
def cacheErase (f : Nat) : List (Nat × Nat) → List (Nat × Nat)
  | [] => []
  | p :: l => if p.1 = f then l else p :: cacheErase f l

/-- The scan of `cache_frame_` from its head inside `Evict`: the first entry
with an evictable frame, together with the list with that entry erased. -/
def cacheScan (ev : Nat → Bool) : List (Nat × Nat) →
    Option ((Nat × Nat) × List (Nat × Nat))
  | [] => none
  | p :: l =>
    if ev p.1 then some (p, l)
    else (cacheScan ev l).map (fun r => (r.1, p :: r.2))

/-- Mirrors `Evict`: nothing evictable when `Size() == 0`; otherwise scan the new
queue from its tail (`rbegin`), then the cache queue from its head.  On a
hit: reset the count, remove from the queue (`std::list::remove` erases all
matching elements; the cache erase removes the found entry), decrement
`curr_size_`, clear the history. -/
def evict (s : LRUKReplacer) : Option Nat × LRUKReplacer :=
  if s.currSize = 0 then (none, s)
  else
    match s.newFrame.reverse.find? (fun f => s.evictable f) with
    | some f =>
      (some f,
        { s with cnt := upd s.cnt f 0,
                 newFrame := s.newFrame.filter (fun g => g ≠ f),
                 currSize := s.currSize - 1,
                 hist := upd s.hist f [] })
    | none =>
      match cacheScan s.evictable s.cacheFrame with
      | some r =>
        (some r.1.1,
          { s with cnt := upd s.cnt r.1.1 0,
                   cacheFrame := r.2,
                   currSize := s.currSize - 1,
                   hist := upd s.hist r.1.1 [] })
      | none => (none, s)

/-- The tail of `RecordAccess` after the first-access block: promotion into
the cache queue when the count reaches `k_` (the k-th access time is the
front of the history, which then holds exactly the last k accesses), and the
re-splice when the count exceeds `k_` (drop the oldest history entry first).
-/
def raTail (s : LRUKReplacer) (f : Nat) (cnt' : Nat) : LRUKReplacer :=
  if cnt' = s.k then
    let s1 := { s with newFrame := s.newFrame.erase f }
    let kth := (s1.hist f).headD 0
    { s1 with cacheFrame := insertCache (f, kth) s1.cacheFrame }
  else if s.k < cnt' then
    let h' := (s.hist f).tail
    let kth := h'.headD 0
    { s with hist := upd s.hist f h',
             cacheFrame := insertCache (f, kth) (cacheErase f s.cacheFrame) }
  else s

/-- Mirrors `RecordAccess`.  The id check is the source's strict
`frame_id > replacer_size_` (so `frame_id == replacer_size_` passes).  On a
first-ever access with `curr_size_ == max_size_` the source calls the
public, self-locking `Evict` while already holding `latch_`; a non-recursive
`std::mutex` acquired again by its holder never returns, so this path is
modelled as `none` (deadlock, no resulting state). -/
def recordAccess (s : LRUKReplacer) (f : Nat) :
    Option (RAResult × LRUKReplacer) :=
  if s.numFrames < f then some (.err, s)
  else
    let ts' := s.ts + 1
    let cnt' := s.cnt f + 1
    let s1 := { s with ts := ts', cnt := upd s.cnt f cnt',
                       hist := upd s.hist f (s.hist f ++ [ts']) }
    if cnt' = 1 then
      if s1.currSize = s1.maxSize then none
      else
        let s2 := { s1 with evictable := upd s1.evictable f true,
                            currSize := s1.currSize + 1,
                            newFrame := f :: s1.newFrame }
        some (.ok, raTail s2 f cnt')
    else some (.ok, raTail s1 f cnt')

/-- Mirrors `SetEvictable`: no-op when the frame has no recorded accesses; otherwise
write the flag and adjust `max_size_` / `curr_size_` on an actual toggle. -/
def setEvictable (s : LRUKReplacer) (f : Nat) (b : Bool) : LRUKReplacer :=
  if s.cnt f = 0 then s
  else
    let status := s.evictable f
    let s1 := { s with evictable := upd s.evictable f b }
    if status = true ∧ b = false then
      { s1 with maxSize := s1.maxSize - 1, currSize := s1.currSize - 1 }
    else if status = false ∧ b = true then
      { s1 with maxSize := s1.maxSize + 1, currSize := s1.currSize + 1 }
    else s1

/-- Mirrors `Remove`: strict id check as in the source; no-op on an untracked frame;
throw on a tracked non-evictable frame; otherwise clear the frame from its
queue, reset count and history, decrement `curr_size_`. -/
def removeFrame (s : LRUKReplacer) (f : Nat) : RAResult × LRUKReplacer :=
  if s.numFrames < f then (.err, s)
  else if s.cnt f = 0 then (.ok, s)
  else if s.evictable f = false then (.err, s)
  else if s.cnt f < s.k then
    (.ok, { s with newFrame := s.newFrame.erase f,
                   cnt := upd s.cnt f 0, hist := upd s.hist f [],
                   currSize := s.currSize - 1 })
  else
    (.ok, { s with cacheFrame := cacheErase f s.cacheFrame,
                   cnt := upd s.cnt f 0, hist := upd s.hist f [],
                   currSize := s.currSize - 1 })

/-- Mirrors `Size`. -/
def size (s : LRUKReplacer) : Nat := s.currSize

/-- A public replacer operation. -/
inductive ROp
  | ra (f : Nat)
  | se (f : Nat) (b : Bool)
  | rm (f : Nat)
  | ev

/-- One public call: `none` when the call never returns (the deadlocking
capacity path of `RecordAccess`). -/
def rstep (s : LRUKReplacer) : ROp → Option LRUKReplacer
  | .ra f => (recordAccess s f).map Prod.snd
  | .se f b => some (setEvictable s f b)
  | .rm f => some (removeFrame s f).2
  | .ev => some (evict s).2

/-- Replacer states reachable from construction (with K ≥ 1, as the spec
requires) through completed public calls. -/
inductive RReach (nf kk : Nat) : LRUKReplacer → Prop
  | init : 1 ≤ kk → RReach nf kk (rinit nf kk)
  | step {s s' : LRUKReplacer} (op : ROp) :
      RReach nf kk s → rstep s op = some s' → RReach nf kk s'

/-- The representation invariant tying the queues to the per-frame maps:
below-K frames sit in the new queue, ordered by strictly decreasing
first-access time from the head; at/above-K frames sit in the cache queue,
sorted ascending by their stored k-th-most-recent access time, which is the
head of their (length-k) history; `curr_size_` counts the evictable queued
frames. -/
structure Inv (s : LRUKReplacer) : Prop where
  k_pos : 1 ≤ s.k
  new_mem : ∀ f ∈ s.newFrame, 1 ≤ s.cnt f ∧ s.cnt f < s.k ∧
    (s.hist f).length = s.cnt f
  new_sorted : s.newFrame.Pairwise
    (fun a b => (s.hist b).headD 0 < (s.hist a).headD 0)
  cache_mem : ∀ p ∈ s.cacheFrame, s.k ≤ s.cnt p.1 ∧
    (s.hist p.1).length = s.k ∧ p.2 = (s.hist p.1).headD 0
  cache_sorted : s.cacheFrame.Pairwise (fun p q => p.2 ≤ q.2)
  cache_nodup : (s.cacheFrame.map Prod.fst).Nodup
  tracked_new : ∀ f, 1 ≤ s.cnt f → s.cnt f < s.k → f ∈ s.newFrame
  tracked_cache : ∀ f, s.k ≤ s.cnt f → f ∈ s.cacheFrame.map Prod.fst
  hist_untracked : ∀ f, s.cnt f = 0 → s.hist f = []
  hist_le : ∀ f, ∀ x ∈ s.hist f, x ≤ s.ts
  size_eq : s.currSize =
    (s.newFrame.filter (fun f => s.evictable f)).length +
    (s.cacheFrame.filter (fun p => s.evictable p.1)).length

end LRUKReplacer

section ConcreteRuns
open EHT LRUKReplacer

/-- The identity hash: the libstdc++ `std::hash<int>` on the `int, int`
instantiation of the table (an identity on the key's value). -/
def identityHash : Nat → Nat := fun n => n

/-- Hash-table run for the round-trip claim: bucket size 2, inserting the
keys 1, 3, 7 (each with itself as value). -/
def c1t3 : ExtendibleHashTable Nat Nat :=
  (insertE identityHash
    ((insertE identityHash
      ((insertE identityHash (einit 2) 1 1).2) 3 3).2) 7 7).2

/-- Then insert key 0. -/
def c1r4 : InsResult × ExtendibleHashTable Nat Nat := insertE identityHash c1t3 0 0

/-- Then insert key 2. -/
def c1r5 : InsResult × ExtendibleHashTable Nat Nat := insertE identityHash c1r4.2 2 2

/-- Then insert key 6: this split swaps the two halves of the bucket at
slots 0 and 2, leaving keys 0 and 2 in buckets their directory slots no
longer point to. -/
def c1r6 : InsResult × ExtendibleHashTable Nat Nat := insertE identityHash c1r5.2 6 6

/-- Overflow run: bucket size 1, key 0 inserted. -/
def c5pre : ExtendibleHashTable Nat Nat := (insertE identityHash (einit 1) 0 0).2

/-- Inserting a key whose hash agrees with 0 on the low 20 bits forces 20
directory doublings and then the overflow throw. -/
def c5run : InsResult × ExtendibleHashTable Nat Nat :=
  insertE identityHash c5pre (2 ^ 20) 5

/-- Run one completed `RecordAccess`, for building concrete states. -/
def raOk (s : LRUKReplacer) (f : Nat) : LRUKReplacer :=
  ((recordAccess s f).map Prod.snd).getD s

/-- The concrete replacer scenario of the spec: K = 2, capacity 3, accesses
1, 2, 3, 1. -/
def c3s : LRUKReplacer := raOk (raOk (raOk (raOk (rinit 3 2) 1) 2) 3) 1

/-- Replacer at capacity: 2 frames, K = 1, frames 0 and 1 accessed. -/
def c9s : LRUKReplacer := raOk (raOk (rinit 2 1) 0) 1

end ConcreteRuns

section EasyTheorems
open EHT LRUKReplacer

/-- Helper: a failed `Bucket::Insert` on a key means the in-place update
found no matching key, so `Bucket::Find` misses too. -/
theorem updateFirst_none_find {K V : Type} [DecidableEq K] (k : K) (v : V) :
    ∀ l : List (K × V), updateFirst k v l = none →
      l.find? (fun p => decide (p.1 = k)) = none := by
  intro l
  induction l with
  | nil => intro _; rfl
  | cons p t ih =>
    intro h
    by_cases hp : p.1 = k
    · simp [updateFirst, hp] at h
    · simp only [updateFirst, if_neg hp, Option.map_eq_none'] at h
      simp [List.find?, hp, ih h]

/-- Helper: a failed `Bucket::Insert` implies `Bucket::Find` misses. -/
theorem bucketInsert_none_find {K V : Type} [DecidableEq K]
    (cap : Nat) (b : Bucket K V) (k : K) (v : V)
    (h : bucketInsert cap b k v = none) : bucketFind b k = none := by
  unfold bucketInsert at h
  cases hu : updateFirst k v b.items with
  | some l => rw [hu] at h; simp at h
  | none =>
    unfold bucketFind
    rw [updateFirst_none_find k v b.items hu]
    rfl

/-- C1: round-trip failure.  With bucket size 2 and the identity hash (the
`int, int` instantiation), inserting the keys 1, 3, 7, 0, 2, 6 makes every
insert return normally, yet `Find(0)` and `Find(2)` both miss even though
keys 0 and 2 were inserted and never removed: the split triggered by
inserting key 6 moves the wrong half of the items out of the bucket shared
by slots 0 and 2. -/
theorem c1_roundtrip_violation :
    c1r4.1 = .ok ∧ c1r5.1 = .ok ∧ c1r6.1 = .ok ∧
    findE identityHash c1r6.2 0 = none ∧ findE identityHash c1r6.2 2 = none := by
  decide

/-- C3 counterexample: in the concrete scenario (K = 2, capacity 3,
accesses 1, 2, 3, 1) the first `Evict` returns frame 2, not frame 3: the
below-K queue is scanned from its tail, and the tail holds frame 2, the
earliest-inserted evictable below-K frame. -/
theorem c3_counterexample :
    (evict c3s).1 = some 2 ∧ (evict c3s).1 ≠ some 3 := by decide

/-- C3 amended: in that scenario frame 1 sits alone in the at/above-K queue
and frames 3, 2 sit in the below-K queue (head to tail); the first `Evict`
returns frame 2 and the next `Evict` returns frame 3. -/
theorem c3_amended_eviction :
    c3s.newFrame = [3, 2] ∧ c3s.cacheFrame = [(1, 1)] ∧
    (evict c3s).1 = some 2 ∧ (evict (evict c3s).2).1 = some 3 := by decide

/-- C5 counterexample: with bucket size 1 and the identity hash, after
inserting key 0, the single `Insert` call on key `2 ^ 20` is rejected with
the overflow throw, but the table is left with global depth 20 and 21
buckets — 20 splits committed by earlier iterations of the same call — not
in its pre-call state (global depth 0, one bucket). -/
theorem c5_counterexample :
    c5run.1 = .overflow ∧ c5pre.globalDepth = 0 ∧ c5pre.numBuckets = 1 ∧
    c5run.2.globalDepth = 20 ∧ c5run.2.numBuckets = 21 := by decide

/-- C5 amended: an `Insert` call that throws overflow does report the
failure and never commits the key — `Find` on the key misses in the
resulting state — although splits and directory growth committed by earlier
iterations of the same call persist (the cap check only precedes the
current doubling). -/
theorem c5_amended_overflow_keeps_key_absent {K V : Type} [DecidableEq K]
    (hash : K → Nat) (fuel : Nat) (s : ExtendibleHashTable K V) (k : K) (v : V)
    (h : (insertLoop hash fuel s k v).1 = .overflow) :
    findE hash (insertLoop hash fuel s k v).2 k = none := by
  induction fuel generalizing s with
  | zero => simp [insertLoop] at h
  | succ n ih =>
    cases hbi : bucketInsert s.bucketSize
        (getBucket s (s.dir (indexOf hash s.globalDepth k))) k v with
    | some b' =>
      simp only [insertLoop, hbi] at h
      exact absurd h (by decide)
    | none =>
      by_cases hc : (getBucket s (s.dir (indexOf hash s.globalDepth k))).depth
          = s.globalDepth ∧ kMaxGlobalDepth ≤ s.globalDepth
      · simp only [insertLoop, hbi, if_pos hc] at h ⊢
        exact bucketInsert_none_find _ _ _ _ hbi
      · simp only [insertLoop, hbi, if_neg hc] at h ⊢
        exact ih _ h

/-- Witness for the amended C5 theorem at the concrete overflow run. -/
theorem c5_amended_witness :
    findE identityHash (insertLoop identityHash 64 c5pre (2 ^ 20) 5).2 (2 ^ 20)
      = none :=
  c5_amended_overflow_keeps_key_absent identityHash 64 c5pre (2 ^ 20) 5 (by decide)

/-- C7 counterexample: with 1 configured frame, the id 1 is at the capacity
(the valid ids being 0), yet `RecordAccess(1)` is accepted — the source
checks `frame_id > replacer_size_`, not `>=` — and mutates state: it
returns normally and afterwards the evictable count is 1 and frame 1 has
access count 1. -/
theorem c7_counterexample :
    (recordAccess (rinit 1 1) 1).map (fun p => (p.1, p.2.currSize, p.2.cnt 1))
      = some (.ok, 1, 1) ∧ (rinit 1 1).numFrames = 1 := by decide

/-- C7 amended: an id strictly beyond the configured capacity is rejected
by `RecordAccess` and `Remove` with the thrown input-validation error, and
the state is completely unchanged (the check precedes every mutation); an
id equal to the capacity passes the check. -/
theorem c7_amended_strict_range_check (s : LRUKReplacer) (f : Nat)
    (h : s.numFrames < f) :
    recordAccess s f = some (.err, s) ∧ removeFrame s f = (.err, s) := by
  constructor
  · unfold recordAccess; rw [if_pos h]
  · unfold removeFrame; rw [if_pos h]

/-- Witness for the amended C7 theorem. -/
theorem c7_amended_witness :
    recordAccess (rinit 3 2) 5 = some (.err, rinit 3 2) ∧
    removeFrame (rinit 3 2) 5 = (.err, rinit 3 2) :=
  c7_amended_strict_range_check (rinit 3 2) 5 (by decide)

/-- C9: the capacity-eviction path deadlocks.  With 2 frames and K = 1,
after accesses to frames 0 and 1 the replacer is at capacity
(`curr_size_ == max_size_`); the next first-ever access (frame 2, which
passes the strict id check) takes `latch_` and then calls the public,
self-locking `Evict`, re-acquiring the same non-recursive mutex: the call
never returns.  The embedding marks the never-returning call as `none`. -/
theorem c9_capacity_path_deadlock :
    c9s.currSize = c9s.maxSize ∧ c9s.cnt 2 = 0 ∧ 2 ≤ c9s.numFrames ∧
    recordAccess c9s 2 = none := ⟨rfl, rfl, by decide, rfl⟩

/-- C10: `SetEvictable` on a tracked frame whose flag already has the
requested value changes nothing — neither queue, counter, `size()` nor
`max_size_` — so repeating the call is the same as making it once. -/
theorem c10_setEvictable_idempotent (s : LRUKReplacer) (f : Nat) (b : Bool)
    (h1 : s.cnt f ≠ 0) (h2 : s.evictable f = b) :
    setEvictable s f b = s ∧
    setEvictable (setEvictable s f b) f b = setEvictable s f b := by
  have hupd : upd s.evictable f b = s.evictable := by
    funext y
    unfold upd
    by_cases hy : y = f
    · subst hy; simp [h2]
    · simp [hy]
  have key : setEvictable s f b = s := by
    unfold setEvictable
    rw [if_neg h1]
    cases b with
    | true => simp [h2, hupd]
    | false => simp [h2, hupd]
  exact ⟨key, by rw [key]; exact key⟩

/-- Witness for the C10 theorem on a concrete tracked frame. -/
theorem c10_witness :
    setEvictable (raOk (rinit 3 2) 1) 1 true = raOk (rinit 3 2) 1 ∧
    setEvictable (setEvictable (raOk (rinit 3 2) 1) 1 true) 1 true
      = setEvictable (raOk (rinit 3 2) 1) 1 true :=
  c10_setEvictable_idempotent (raOk (rinit 3 2) 1) 1 true (by decide) (by decide)

end EasyTheorems

namespace EHT

theorem getD_set_self (l : List α) (i : Nat) (x d : α) (h : i < l.length) :
    (l.set i x).getD i d = x := by
  simp [List.getD, List.getElem?_set_eq_of_lt, h]

theorem getD_set_ne (l : List α) {i j : Nat} (x d : α) (h : i ≠ j) :
    (l.set i x).getD j d = l.getD j d := by
  simp [List.getD, List.getElem?_set_ne h]

theorem getD_append_left (l : List α) (x d : α) {j : Nat} (h : j < l.length) :
    (l ++ [x]).getD j d = l.getD j d := by
  simp [List.getD, List.getElem?_append_left h]

theorem getD_append_right (l : List α) (x d : α) :
    (l ++ [x]).getD l.length d = x := by
  simp [List.getD]

/-- A successful `Bucket::Insert` never changes the bucket's local depth. -/
theorem bucketInsert_some_depth {K V : Type} [DecidableEq K]
    {cap : Nat} {b : Bucket K V} {k : K} {v : V} {b' : Bucket K V}
    (h : bucketInsert cap b k v = some b') : b'.depth = b.depth := by
  unfold bucketInsert at h
  cases hu : updateFirst k v b.items with
  | some l =>
    rw [hu] at h
    injection h with h'
    rw [← h']
  | none =>
    rw [hu] at h
    by_cases hl : b.items.length = cap
    · rw [if_pos hl] at h; exact absurd h (by simp)
    · rw [if_neg hl] at h
      injection h with h'
      rw [← h']

/-- The redistribution loop never changes the new bucket's local depth. -/
theorem redistribAux_depth (hash : K → Nat) [DecidableEq K] (g i cap : Nat) :
    ∀ (l : List (K × V)) (nb : Bucket K V),
      (redistribAux hash g i cap l nb).2.depth = nb.depth := by
  intro l
  induction l with
  | nil => intro nb; rfl
  | cons p rest ih =>
    intro nb
    unfold redistribAux
    by_cases hp : indexOf hash g p.1 ≠ i
    · rw [if_pos hp, ih]
      cases hbi : bucketInsert cap nb p.1 p.2 with
      | some nb' => simp [hbi, bucketInsert_some_depth hbi]
      | none => simp [hbi]
    · rw [if_neg hp]
      exact ih nb

/-- Replacing a referenced bucket by one of equal depth preserves the
directory invariant. -/
theorem dirInv_set_same_depth {K V : Type} {s : ExtendibleHashTable K V}
    {bid : Nat} {b' : Bucket K V} (h : dirInv s)
    (hbid : bid < s.arena.length) (hd : b'.depth = (getBucket s bid).depth) :
    dirInv { s with arena := s.arena.set bid b' } := by
  obtain ⟨hsz, hslot⟩ := h
  refine ⟨hsz, ?_⟩
  intro j hj
  obtain ⟨hlt, hdep⟩ := hslot j hj
  refine ⟨by simpa using hlt, ?_⟩
  by_cases hb : bid = s.dir j
  · subst hb
    simp only [getBucket] at hdep ⊢
    rw [getD_set_self _ _ _ _ hbid, hd]
    exact hdep
  · simp only [getBucket] at hdep ⊢
    rw [getD_set_ne _ _ _ hb]
    exact hdep

/-- Slot references stay valid and depth-bounded by `g` across the
directory (weakening of `dirInv` used through a split). -/
def dirBound (s : ExtendibleHashTable K V) (g : Nat) : Prop :=
  ∀ j < s.dirSize, s.dir j < s.arena.length ∧
    (getBucket s (s.dir j)).depth ≤ g

/-- The split proper preserves the directory invariant when the incremented
depth stays at most the (current) global depth. -/
theorem dirInv_applySplit (hash : K → Nat) [DecidableEq K]
    {s1 : ExtendibleHashTable K V} {i bid : Nat} {b : Bucket K V} {g0 : Nat}
    (hsz : s1.dirSize = 2 ^ s1.globalDepth)
    (hbound : dirBound s1 g0) (hg0 : g0 ≤ s1.globalDepth)
    (hbid : bid < s1.arena.length)
    (hdepth : b.depth + 1 ≤ s1.globalDepth) :
    dirInv (applySplit hash s1 i bid b) := by
  refine ⟨hsz, ?_⟩
  intro j hj
  simp only [applySplit, getBucket] at hj ⊢
  set r := redistribAux hash s1.globalDepth i s1.bucketSize b.items
    ⟨b.depth + 1, []⟩ with hr
  have hsetlen : (s1.arena.set bid (⟨b.depth + 1, r.1⟩ : Bucket K V)).length
      = s1.arena.length := by simp
  by_cases hcond : j < s1.dirSize ∧ s1.dir j = bid ∧
      Nat.testBit j (b.depth + 1 - 1)
  · rw [if_pos hcond]
    constructor
    · simp
    · have : s1.arena.length
          = (s1.arena.set bid (⟨b.depth + 1, r.1⟩ : Bucket K V)).length := hsetlen.symm
      rw [this, getD_append_right]
      have := redistribAux_depth hash s1.globalDepth i s1.bucketSize b.items
        (⟨b.depth + 1, []⟩ : Bucket K V)
      rw [← hr] at this
      rw [this]
      exact hdepth
  · rw [if_neg hcond]
    obtain ⟨hlt, hdep⟩ := hbound j hj
    constructor
    · simp only [List.length_append, hsetlen, List.length_cons, List.length_nil]
      omega
    · have hlt' : s1.dir j < (s1.arena.set bid
          (⟨b.depth + 1, r.1⟩ : Bucket K V)).length := by rw [hsetlen]; exact hlt
      rw [getD_append_left _ _ _ hlt']
      by_cases hb : bid = s1.dir j
      · subst hb
        rw [getD_set_self _ _ _ _ hbid]
        exact hdepth
      · rw [getD_set_ne _ _ _ hb]
        exact le_trans hdep (le_trans hg0 (le_refl _))

/-- Directory doubling: the size law and the slot bound (with depths still
bounded by the pre-doubling global depth). -/
theorem dirBound_doubleDir {s : ExtendibleHashTable K V}
    (hsz : s.dirSize = 2 ^ s.globalDepth) (hbound : dirBound s s.globalDepth) :
    (doubleDir s).dirSize = 2 ^ (doubleDir s).globalDepth ∧
    dirBound (doubleDir s) s.globalDepth := by
  constructor
  · simp only [doubleDir, pow_succ, hsz]
  · intro j hj
    simp only [doubleDir] at hj
    by_cases hlow : j < s.dirSize
    · have hb := hbound j hlow
      simp only [getBucket] at hb
      simp only [doubleDir, getBucket, if_pos hlow]
      exact hb
    · have hj' : j - s.dirSize < s.dirSize := by omega
      have hb := hbound _ hj'
      simp only [getBucket] at hb
      simp only [doubleDir, getBucket, if_neg hlow]
      exact hb

/-- One full-bucket iteration preserves the directory invariant. -/
theorem dirInv_splitStep (hash : K → Nat) [DecidableEq K]
    {s : ExtendibleHashTable K V} {i : Nat}
    (hinv : dirInv s) (hi : i < s.dirSize) :
    dirInv (splitStep hash s i (s.dir i) (getBucket s (s.dir i))) := by
  obtain ⟨hsz, hslot⟩ := hinv
  obtain ⟨hbid, hbdep⟩ := hslot i hi
  unfold splitStep
  by_cases hd : (getBucket s (s.dir i)).depth = s.globalDepth
  · rw [if_pos hd]
    obtain ⟨hsz2, hbound2⟩ := dirBound_doubleDir hsz hslot
    exact dirInv_applySplit hash hsz2 hbound2 (by simp [doubleDir])
      (by simp only [doubleDir]; exact hbid)
      (by simp only [doubleDir]; omega)
  · rw [if_neg hd]
    exact dirInv_applySplit hash hsz hslot (le_refl _) hbid (by omega)

/-- The operation `Remove` preserves the directory invariant. -/
theorem dirInv_removeE (hash : K → Nat) [DecidableEq K]
    {s : ExtendibleHashTable K V} (k : K) (h : dirInv s) :
    dirInv (removeE hash s k).2 := by
  have hi : indexOf hash s.globalDepth k < s.dirSize := by
    rw [h.1]
    exact Nat.mod_lt _ (Nat.pos_pow_of_pos _ (by omega))
  obtain ⟨hlt, _⟩ := h.2 _ hi
  cases hrf : removeFirst k
      (getBucket s (s.dir (indexOf hash s.globalDepth k))).items with
  | none => simp only [removeE, hrf]; exact h
  | some l => simp only [removeE, hrf]; exact dirInv_set_same_depth h hlt rfl

/-- The freshly constructed table satisfies the directory invariant. -/
theorem dirInv_einit (bsz : Nat) : dirInv (einit bsz : ExtendibleHashTable K V) := by
  refine ⟨rfl, ?_⟩
  intro j hj
  constructor <;> simp [einit, getBucket]

/-- The insert loop preserves the directory invariant. -/
theorem dirInv_insertLoop (hash : K → Nat) [DecidableEq K] (fuel : Nat) :
    ∀ (s : ExtendibleHashTable K V) (k : K) (v : V),
      dirInv s → dirInv (insertLoop hash fuel s k v).2 := by
  induction fuel with
  | zero => intro s _ _ h; exact h
  | succ n ih =>
    intro s k v h
    have hi : indexOf hash s.globalDepth k < s.dirSize := by
      rw [h.1]
      exact Nat.mod_lt _ (Nat.pos_pow_of_pos _ (by omega))
    obtain ⟨hlt, _⟩ := h.2 _ hi
    cases hbi : bucketInsert s.bucketSize
        (getBucket s (s.dir (indexOf hash s.globalDepth k))) k v with
    | some b' =>
      simp only [insertLoop, hbi]
      exact dirInv_set_same_depth h hlt (bucketInsert_some_depth hbi)
    | none =>
      by_cases hc : (getBucket s (s.dir (indexOf hash s.globalDepth k))).depth
          = s.globalDepth ∧ kMaxGlobalDepth ≤ s.globalDepth
      · simp only [insertLoop, hbi, if_pos hc]
        exact h
      · simp only [insertLoop, hbi, if_neg hc]
        exact ih _ k v (dirInv_splitStep hash h hi)

end EHT

/-- C4: after construction and after every public operation (any reachable
state of the table), the directory length equals `2 ^ global_depth` and
every bucket referenced by a directory slot has local depth at most the
global depth. -/
theorem c4_directory_invariant {K V : Type} [DecidableEq K] (hash : K → Nat)
    (bsz : Nat) (s : EHT.ExtendibleHashTable K V) (h : EHT.EReach hash bsz s) :
    EHT.dirInv s := by
  induction h with
  | init => exact EHT.dirInv_einit bsz
  | insert fuel k v _ ih => exact EHT.dirInv_insertLoop hash fuel _ k v ih
  | remove k _ ih => exact EHT.dirInv_removeE hash k ih

namespace LRUKReplacer

theorem upd_self (m : Nat → α) (x : Nat) (v : α) : upd m x v x = v := by
  simp [upd]

theorem upd_ne (m : Nat → α) (x : Nat) (v : α) {y : Nat} (h : y ≠ x) :
    upd m x v y = m y := by
  simp [upd, h]

theorem headD_mem {l : List Nat} (h : l ≠ []) : l.headD 0 ∈ l := by
  cases l with
  | nil => exact absurd rfl h
  | cons a t => simp

theorem headD_append {l : List Nat} (x : Nat) (h : l ≠ []) :
    (l ++ [x]).headD 0 = l.headD 0 := by
  cases l with
  | nil => exact absurd rfl h
  | cons a t => simp

theorem tail_append_of_ne_nil {l : List Nat} (x : Nat) (h : l ≠ []) :
    (l ++ [x]).tail = l.tail ++ [x] := by
  cases l with
  | nil => exact absurd rfl h
  | cons a t => simp

/-- Ordered insertion permutes to consing. -/
theorem insertCache_perm (v : Nat × Nat) (l : List (Nat × Nat)) :
    List.Perm (insertCache v l) (v :: l) := by
  induction l with
  | nil => exact List.Perm.refl _
  | cons p t ih =>
    unfold insertCache
    by_cases hv : v.2 < p.2
    · rw [if_pos hv]
    · rw [if_neg hv]
      exact (ih.cons p).trans (List.Perm.swap v p t)

/-- Ordered insertion preserves sortedness by the timestamp component. -/
theorem insertCache_sorted {v : Nat × Nat} {l : List (Nat × Nat)}
    (h : l.Pairwise (fun p q => p.2 ≤ q.2)) :
    (insertCache v l).Pairwise (fun p q => p.2 ≤ q.2) := by
  induction l with
  | nil => simp [insertCache]
  | cons p t ih =>
    rw [List.pairwise_cons] at h
    obtain ⟨hp, ht⟩ := h
    unfold insertCache
    by_cases hv : v.2 < p.2
    · rw [if_pos hv]
      refine List.pairwise_cons.2 ⟨?_, List.pairwise_cons.2 ⟨hp, ht⟩⟩
      intro q hq
      rw [List.mem_cons] at hq
      rcases hq with rfl | hq
      · exact le_of_lt hv
      · exact le_trans (le_of_lt hv) (hp q hq)
    · rw [if_neg hv]
      refine List.pairwise_cons.2 ⟨?_, ih ht⟩
      intro q hq
      have hq' : q ∈ v :: t := (insertCache_perm v t).mem_iff.mp hq
      rw [List.mem_cons] at hq'
      rcases hq' with rfl | hq'
      · omega
      · exact hp q hq'

theorem cacheErase_sublist (f : Nat) (l : List (Nat × Nat)) :
    List.Sublist (cacheErase f l) l := by
  induction l with
  | nil => simp [cacheErase]
  | cons p t ih =>
    unfold cacheErase
    by_cases hp : p.1 = f
    · rw [if_pos hp]
      exact List.sublist_cons_of_sublist p (List.Sublist.refl t)
    · rw [if_neg hp]
      exact List.Sublist.cons₂ p ih

/-- With distinct frames, erasing a present frame permutes the list to that
entry consed on the erased list. -/
theorem cacheErase_perm {l : List (Nat × Nat)} {p : Nat × Nat} {f : Nat}
    (hnd : (l.map Prod.fst).Nodup) (hp : p ∈ l) (hf : p.1 = f) :
    List.Perm l (p :: cacheErase f l) := by
  induction l with
  | nil => cases hp
  | cons q t ih =>
    rw [List.map_cons, List.nodup_cons] at hnd
    obtain ⟨hq, hnd'⟩ := hnd
    unfold cacheErase
    rw [List.mem_cons] at hp
    by_cases hqf : q.1 = f
    · rw [if_pos hqf]
      rcases hp with rfl | hp
      · exact List.Perm.refl _
      · exact absurd (List.mem_map.2 ⟨p, hp, hf.trans hqf.symm⟩) hq
    · rw [if_neg hqf]
      rcases hp with rfl | hp
      · exact absurd hf hqf
      · exact ((ih hnd' hp).cons q).trans (List.Perm.swap p q _)

/-- The first match of a predicate on a pairwise-related list is related to
every later match. -/
theorem find?_pairwise_min {α : Type} {R : α → α → Prop} {p : α → Bool}
    {l : List α} {a : α} (hs : l.Pairwise R) (h : l.find? p = some a) :
    ∀ b ∈ l, p b = true → a = b ∨ R a b := by
  induction l with
  | nil => cases h
  | cons x t ih =>
    rw [List.pairwise_cons] at hs
    obtain ⟨hx, ht⟩ := hs
    intro b hb hpb
    rw [List.mem_cons] at hb
    by_cases hpx : p x
    · rw [List.find?_cons_of_pos _ hpx] at h
      injection h with h
      subst h
      rcases hb with rfl | hb
      · exact Or.inl rfl
      · exact Or.inr (hx b hb)
    · rw [List.find?_cons_of_neg _ (by simpa using hpx)] at h
      rcases hb with rfl | hb
      · exact absurd hpb (by simpa using hpx)
      · exact ih ht h b hb hpb

theorem cacheScan_none {ev : Nat → Bool} :
    ∀ {l : List (Nat × Nat)}, cacheScan ev l = none →
      ∀ p ∈ l, ev p.1 = false := by
  intro l
  induction l with
  | nil => intro _ p hp; cases hp
  | cons q t ih =>
    intro h p hp
    unfold cacheScan at h
    rw [List.mem_cons] at hp
    by_cases hq : ev q.1
    · rw [if_pos hq] at h; cases h
    · rw [if_neg hq] at h
      rcases hp with rfl | hp
      · simpa using hq
      · exact ih (by simpa using h) p hp

theorem cacheScan_isSome {ev : Nat → Bool} {l : List (Nat × Nat)}
    (h : ∃ p ∈ l, ev p.1 = true) : (cacheScan ev l).isSome := by
  cases hs : cacheScan ev l with
  | some r => rfl
  | none =>
    obtain ⟨p, hp, hev⟩ := h
    rw [cacheScan_none hs p hp] at hev
    cases hev

/-- Basic facts about a successful cache scan: the hit is evictable, is in
the list, the list permutes to the hit consed on the remainder, and the
remainder is a sublist. -/
theorem cacheScan_some {ev : Nat → Bool} :
    ∀ {l rest : List (Nat × Nat)} {p : Nat × Nat},
      cacheScan ev l = some (p, rest) →
      ev p.1 = true ∧ p ∈ l ∧ List.Perm l (p :: rest) ∧
        List.Sublist rest l := by
  intro l
  induction l with
  | nil => intro rest p h; cases h
  | cons q t ih =>
    intro rest p h
    unfold cacheScan at h
    by_cases hq : ev q.1
    · rw [if_pos hq] at h
      injection h with h
      injection h with h1 h2
      subst h1; subst h2
      exact ⟨hq, List.mem_cons_self _ _, List.Perm.refl _,
        List.sublist_cons_of_sublist q (List.Sublist.refl t)⟩
    · rw [if_neg hq] at h
      cases hs : cacheScan ev t with
      | none => rw [hs] at h; cases h
      | some r =>
        obtain ⟨p1, r2⟩ := r
        rw [hs] at h
        injection h with h
        injection h with h1 h2
        subst h1
        subst h2
        obtain ⟨hev, hmem, hperm, hsub⟩ := ih hs
        refine ⟨hev, List.mem_cons_of_mem q hmem, ?_, List.Sublist.cons₂ q hsub⟩
        exact ((hperm.cons q).trans (List.Perm.swap p1 q _))

/-- On a timestamp-sorted cache, a successful scan returns an entry whose
timestamp is minimal among evictable entries. -/
theorem cacheScan_min {ev : Nat → Bool} :
    ∀ {l rest : List (Nat × Nat)} {p : Nat × Nat},
      l.Pairwise (fun p q => p.2 ≤ q.2) →
      cacheScan ev l = some (p, rest) →
      ∀ q ∈ l, ev q.1 = true → p.2 ≤ q.2 := by
  intro l
  induction l with
  | nil => intro rest p _ h; cases h
  | cons x t ih =>
    intro rest p hs h q hq hev
    rw [List.pairwise_cons] at hs
    obtain ⟨hx, ht⟩ := hs
    unfold cacheScan at h
    rw [List.mem_cons] at hq
    by_cases hxe : ev x.1
    · rw [if_pos hxe] at h
      injection h with h
      injection h with h1 _
      subst h1
      rcases hq with rfl | hq
      · exact le_refl _
      · exact hx q hq
    · rw [if_neg hxe] at h
      cases hsc : cacheScan ev t with
      | none => rw [hsc] at h; cases h
      | some r =>
        obtain ⟨p1, r2⟩ := r
        rw [hsc] at h
        injection h with h
        injection h with h1 _
        subst h1
        rcases hq with rfl | hq
        · rw [hev] at hxe; cases hxe rfl
        · exact ih ht hsc q hq hev

/-- Filtering is unchanged by updating the flag of a frame absent from the
list. -/
theorem filter_upd_not_mem {l : List Nat} {f : Nat} (hf : f ∉ l)
    (ev : Nat → Bool) (b : Bool) :
    l.filter (fun g => upd ev f b g) = l.filter (fun g => ev g) :=
  List.filter_congr (fun x hx => by
    rw [upd_ne _ _ _ (fun h => hf (by rw [← h]; exact hx))])

/-- Pair version of `filter_upd_not_mem`. -/
theorem filter_upd_not_mem_fst {l : List (Nat × Nat)} {f : Nat}
    (hf : f ∉ l.map Prod.fst) (ev : Nat → Bool) (b : Bool) :
    l.filter (fun p => upd ev f b p.1) = l.filter (fun p => ev p.1) :=
  List.filter_congr (fun x hx => by
    rw [upd_ne _ _ _ (fun h => hf (List.mem_map.2 ⟨x, hx, h⟩))])

/-- Counting filtered elements after erasing one occurrence. -/
theorem length_filter_erase {l : List Nat} {f : Nat} (hf : f ∈ l)
    (p : Nat → Bool) :
    ((l.erase f).filter p).length + (if p f then 1 else 0)
      = (l.filter p).length := by
  have hperm := List.perm_cons_erase hf
  have h1 := ((hperm.filter p).length_eq)
  rw [h1, List.filter_cons]
  by_cases hp : p f
  · simp [hp]
  · simp [hp]

/-- Counting filtered entries after erasing the entry of frame `f`. -/
theorem length_filter_cacheErase {l : List (Nat × Nat)} {q : Nat × Nat}
    {f : Nat} (hnd : (l.map Prod.fst).Nodup) (hq : q ∈ l) (hf : q.1 = f)
    (pr : Nat × Nat → Bool) :
    ((cacheErase f l).filter pr).length + (if pr q then 1 else 0)
      = (l.filter pr).length := by
  have hperm := cacheErase_perm hnd hq hf
  have h1 := ((hperm.filter pr).length_eq)
  rw [h1, List.filter_cons]
  by_cases hp : pr q
  · simp [hp]
  · simp [hp]

/-- Counting filtered entries after an ordered insertion. -/
theorem length_filter_insertCache (v : Nat × Nat) (l : List (Nat × Nat))
    (pr : Nat × Nat → Bool) :
    ((insertCache v l).filter pr).length
      = (if pr v then 1 else 0) + (l.filter pr).length := by
  have h1 := (((insertCache_perm v l).filter pr).length_eq)
  rw [h1, List.filter_cons]
  by_cases hp : pr v
  · simp [hp]; omega
  · simp [hp]

/-- Membership in an ordered insertion. -/
theorem mem_insertCache {q v : Nat × Nat} {l : List (Nat × Nat)} :
    q ∈ insertCache v l ↔ q = v ∨ q ∈ l := by
  rw [(insertCache_perm v l).mem_iff, List.mem_cons]

/-- Frame membership in an ordered insertion. -/
theorem mem_map_insertCache {g : Nat} {v : Nat × Nat} {l : List (Nat × Nat)} :
    g ∈ (insertCache v l).map Prod.fst ↔ g = v.1 ∨ g ∈ l.map Prod.fst := by
  rw [((insertCache_perm v l).map Prod.fst).mem_iff, List.map_cons,
    List.mem_cons]

/-- Distinct frames survive an ordered insertion of a fresh frame. -/
theorem nodup_map_insertCache {v : Nat × Nat} {l : List (Nat × Nat)}
    (hnd : (l.map Prod.fst).Nodup) (hv : v.1 ∉ l.map Prod.fst) :
    ((insertCache v l).map Prod.fst).Nodup := by
  have hperm := (insertCache_perm v l).map Prod.fst
  rw [hperm.nodup_iff, List.map_cons, List.nodup_cons]
  exact ⟨hv, hnd⟩

/-- After erasing frame `f`, frame `f` is gone (under distinctness). -/
theorem not_mem_map_cacheErase {l : List (Nat × Nat)} {q : Nat × Nat}
    {f : Nat} (hnd : (l.map Prod.fst).Nodup) (hq : q ∈ l) (hf : q.1 = f) :
    f ∉ (cacheErase f l).map Prod.fst := by
  have hperm := (cacheErase_perm hnd hq hf).map Prod.fst
  rw [List.map_cons, hf] at hperm
  have := hperm.nodup_iff.mp hnd
  rw [List.nodup_cons] at this
  exact this.1

/-- Frames other than `f` survive `cacheErase f`. -/
theorem mem_map_cacheErase_of_ne {l : List (Nat × Nat)} {q : Nat × Nat}
    {f g : Nat} (hnd : (l.map Prod.fst).Nodup) (hq : q ∈ l) (hf : q.1 = f)
    (hg : g ∈ l.map Prod.fst) (hne : g ≠ f) :
    g ∈ (cacheErase f l).map Prod.fst := by
  have hperm := (cacheErase_perm hnd hq hf).map Prod.fst
  rw [List.map_cons, hf] at hperm
  have := hperm.mem_iff.mp hg
  rw [List.mem_cons] at this
  rcases this with rfl | h
  · exact absurd rfl hne
  · exact h

/-- Below-K queue entries are distinct (from strict head sortedness). -/
theorem Inv.new_nodup {s : LRUKReplacer} (h : Inv s) : s.newFrame.Nodup :=
  h.new_sorted.imp (fun hr heq => by
    subst heq; exact absurd hr (lt_irrefl _))

/-- A frame in the cache queue has count at least K. -/
theorem Inv.mem_cache_cnt {s : LRUKReplacer} {f : Nat} (h : Inv s)
    (hf : f ∈ s.cacheFrame.map Prod.fst) : s.k ≤ s.cnt f := by
  obtain ⟨p, hp, hpf⟩ := List.mem_map.mp hf
  have := (h.cache_mem p hp).1
  rwa [hpf] at this

/-- A below-K frame is not in the cache queue. -/
theorem Inv.new_not_cache {s : LRUKReplacer} {f : Nat} (h : Inv s)
    (hf : f ∈ s.newFrame) : f ∉ s.cacheFrame.map Prod.fst := by
  intro hc
  have h1 := (h.new_mem f hf).2.1
  have h2 := h.mem_cache_cnt hc
  omega

/-- A cache frame is not in the below-K queue. -/
theorem Inv.cache_not_new {s : LRUKReplacer} {f : Nat} (h : Inv s)
    (hf : f ∈ s.cacheFrame.map Prod.fst) : f ∉ s.newFrame := by
  intro hn
  have h1 := (h.new_mem f hn).2.1
  have h2 := h.mem_cache_cnt hf
  omega

/-- An untracked frame is in neither queue. -/
theorem Inv.untracked_not_new {s : LRUKReplacer} {f : Nat} (h : Inv s)
    (h0 : s.cnt f = 0) : f ∉ s.newFrame := by
  intro hn
  have := (h.new_mem f hn).1
  omega

/-- An untracked frame is not in the cache queue. -/
theorem Inv.untracked_not_cache {s : LRUKReplacer} {f : Nat} (h : Inv s)
    (h0 : s.cnt f = 0) : f ∉ s.cacheFrame.map Prod.fst := by
  intro hc
  have h1 := h.mem_cache_cnt hc
  have h2 := h.k_pos
  omega

/-- A below-K frame's history is nonempty. -/
theorem Inv.new_hist_ne {s : LRUKReplacer} {f : Nat} (h : Inv s)
    (hf : f ∈ s.newFrame) : s.hist f ≠ [] := by
  have h1 := (h.new_mem f hf).1
  have h2 := (h.new_mem f hf).2.2
  intro he
  rw [he] at h2
  simp at h2
  omega

/-- A cache entry's history is nonempty. -/
theorem Inv.cache_hist_ne {s : LRUKReplacer} {p : Nat × Nat} (h : Inv s)
    (hp : p ∈ s.cacheFrame) : s.hist p.1 ≠ [] := by
  have h1 := (h.cache_mem p hp).2.1
  have h2 := h.k_pos
  intro he
  rw [he] at h1
  simp at h1
  omega

/-- The initial replacer state satisfies the invariant. -/
theorem inv_rinit (nf kk : Nat) (hk : 1 ≤ kk) : Inv (rinit nf kk) := by
  refine ⟨hk, ?_, ?_, ?_, ?_, ?_, ?_, ?_, ?_, ?_, ?_⟩ <;>
    simp [rinit] <;> omega

theorem upd_upd (m : Nat → α) (x : Nat) (v w : α) :
    upd (upd m x v) x w = upd m x w := by
  funext y
  by_cases hy : y = x
  · subst hy; rw [upd_self, upd_self]
  · rw [upd_ne _ _ _ hy, upd_ne _ _ _ hy, upd_ne _ _ _ hy]

/-- Head-sortedness is insensitive to updating the history of a frame not in
the list. -/
theorem pairwise_heads_upd_of_not_mem {l : List Nat} {f : Nat} (hf : f ∉ l)
    {hist : Nat → List Nat} (a : List Nat)
    (hp : l.Pairwise (fun x y => (hist y).headD 0 < (hist x).headD 0)) :
    l.Pairwise (fun x y => ((upd hist f a) y).headD 0
      < ((upd hist f a) x).headD 0) :=
  hp.imp_of_mem (fun hx hy hr => by
    rw [upd_ne _ _ _ (fun e => hf (by rw [← e]; exact hy)),
      upd_ne _ _ _ (fun e => hf (by rw [← e]; exact hx))]
    exact hr)

/-- The operation `SetEvictable` preserves the invariant. -/
theorem inv_setEvictable (s : LRUKReplacer) (f : Nat) (b : Bool)
    (h : Inv s) : Inv (setEvictable s f b) := by
  unfold setEvictable
  by_cases h0 : s.cnt f = 0
  · rw [if_pos h0]; exact h
  rw [if_neg h0]
  by_cases hc1 : s.evictable f = true ∧ b = false
  · rw [if_pos hc1]
    refine ⟨h.k_pos, h.new_mem, h.new_sorted, h.cache_mem, h.cache_sorted,
      h.cache_nodup, h.tracked_new, h.tracked_cache, h.hist_untracked,
      h.hist_le, ?_⟩
    dsimp only
    obtain ⟨hev, rfl⟩ := hc1
    have hsz := h.size_eq
    by_cases hin : s.cnt f < s.k
    · -- the frame is in the below-K queue
      have hf : f ∈ s.newFrame := h.tracked_new f (by omega) hin
      have hfc : f ∉ s.cacheFrame.map Prod.fst := h.new_not_cache hf
      have hfe : f ∉ s.newFrame.erase f := h.new_nodup.not_mem_erase
      have e1 := length_filter_erase hf (fun g => upd s.evictable f false g)
      have e2 := length_filter_erase hf (fun g => s.evictable g)
      rw [upd_self] at e1
      rw [hev] at e2
      simp only [if_false, if_true, Bool.false_eq_true, reduceIte] at e1 e2
      rw [filter_upd_not_mem hfe] at e1
      rw [filter_upd_not_mem_fst hfc]
      omega
    · -- the frame is in the cache queue
      have hf : f ∈ s.cacheFrame.map Prod.fst := h.tracked_cache f (by omega)
      obtain ⟨q, hq, hqf⟩ := List.mem_map.mp hf
      have hfn : f ∉ s.newFrame := h.cache_not_new hf
      have hce : f ∉ (cacheErase f s.cacheFrame).map Prod.fst :=
        not_mem_map_cacheErase h.cache_nodup hq hqf
      have e1 := length_filter_cacheErase h.cache_nodup hq hqf
        (fun p => upd s.evictable f false p.1)
      have e2 := length_filter_cacheErase h.cache_nodup hq hqf
        (fun p => s.evictable p.1)
      rw [hqf, upd_self] at e1
      rw [hqf, hev] at e2
      simp only [if_false, if_true, Bool.false_eq_true, reduceIte] at e1 e2
      rw [filter_upd_not_mem_fst hce] at e1
      rw [filter_upd_not_mem hfn]
      -- rewrite the cache filter through the erase-based counts
      have e3 : (s.cacheFrame.filter (fun p => upd s.evictable f false p.1)).length
          = ((cacheErase f s.cacheFrame).filter
              (fun p => s.evictable p.1)).length := by
        have hperm := cacheErase_perm h.cache_nodup hq hqf
        have h4 := ((hperm.filter (fun p => upd s.evictable f false p.1)).length_eq)
        rw [h4, List.filter_cons]
        rw [hqf, upd_self]
        simp only [Bool.false_eq_true, reduceIte]
        rw [filter_upd_not_mem_fst hce]
      rw [e3]
      omega
  rw [if_neg hc1]
  by_cases hc2 : s.evictable f = false ∧ b = true
  · rw [if_pos hc2]
    refine ⟨h.k_pos, h.new_mem, h.new_sorted, h.cache_mem, h.cache_sorted,
      h.cache_nodup, h.tracked_new, h.tracked_cache, h.hist_untracked,
      h.hist_le, ?_⟩
    dsimp only
    obtain ⟨hev, rfl⟩ := hc2
    have hsz := h.size_eq
    by_cases hin : s.cnt f < s.k
    · have hf : f ∈ s.newFrame := h.tracked_new f (by omega) hin
      have hfc : f ∉ s.cacheFrame.map Prod.fst := h.new_not_cache hf
      have hfe : f ∉ s.newFrame.erase f := h.new_nodup.not_mem_erase
      have e1 := length_filter_erase hf (fun g => upd s.evictable f true g)
      have e2 := length_filter_erase hf (fun g => s.evictable g)
      rw [upd_self] at e1
      rw [hev] at e2
      simp only [if_false, if_true, Bool.false_eq_true, reduceIte] at e1 e2
      rw [filter_upd_not_mem hfe] at e1
      rw [filter_upd_not_mem_fst hfc]
      omega
    · have hf : f ∈ s.cacheFrame.map Prod.fst := h.tracked_cache f (by omega)
      obtain ⟨q, hq, hqf⟩ := List.mem_map.mp hf
      have hfn : f ∉ s.newFrame := h.cache_not_new hf
      have hce : f ∉ (cacheErase f s.cacheFrame).map Prod.fst :=
        not_mem_map_cacheErase h.cache_nodup hq hqf
      have e1 := length_filter_cacheErase h.cache_nodup hq hqf
        (fun p => upd s.evictable f true p.1)
      have e2 := length_filter_cacheErase h.cache_nodup hq hqf
        (fun p => s.evictable p.1)
      rw [hqf, upd_self] at e1
      rw [hqf, hev] at e2
      simp only [if_false, if_true, Bool.false_eq_true, reduceIte] at e1 e2
      rw [filter_upd_not_mem_fst hce] at e1
      rw [filter_upd_not_mem hfn]
      omega
  · rw [if_neg hc2]
    have hfun : upd s.evictable f b = s.evictable := by
      funext y
      by_cases hy : y = f
      · subst hy
        cases b with
        | true =>
          cases hv : s.evictable y with
          | true => rw [upd_self]
          | false => exact absurd ⟨hv, rfl⟩ hc2
        | false =>
          cases hv : s.evictable y with
          | true => exact absurd ⟨hv, rfl⟩ hc1
          | false => rw [upd_self]
      · exact upd_ne _ _ _ hy
    rw [hfun]
    exact h

/-- The operation `Remove` preserves the invariant. -/
theorem inv_removeFrame (s : LRUKReplacer) (f : Nat) (h : Inv s) :
    Inv (removeFrame s f).2 := by
  unfold removeFrame
  by_cases hr : s.numFrames < f
  · rw [if_pos hr]; exact h
  rw [if_neg hr]
  by_cases h0 : s.cnt f = 0
  · rw [if_pos h0]; exact h
  rw [if_neg h0]
  by_cases he : s.evictable f = false
  · rw [if_pos he]; exact h
  rw [if_neg he]
  have hev : s.evictable f = true := by
    revert he; cases s.evictable f <;> simp
  by_cases hk : s.cnt f < s.k
  · rw [if_pos hk]
    have hf : f ∈ s.newFrame := h.tracked_new f (by omega) hk
    have hnd := h.new_nodup
    have hfe : f ∉ s.newFrame.erase f := hnd.not_mem_erase
    have hfc : f ∉ s.cacheFrame.map Prod.fst := h.new_not_cache hf
    refine ⟨h.k_pos, ?_, ?_, ?_, ?_, ?_, ?_, ?_, ?_, ?_, ?_⟩
    · intro g hg
      have hgn : g ∈ s.newFrame := List.mem_of_mem_erase hg
      have hgf : g ≠ f := fun e => hfe (e ▸ hg)
      dsimp only
      rw [upd_ne _ _ _ hgf, upd_ne _ _ _ hgf]
      exact h.new_mem g hgn
    · exact pairwise_heads_upd_of_not_mem hfe _
        (h.new_sorted.sublist (List.erase_sublist f s.newFrame))
    · intro p hp
      have hpf : p.1 ≠ f := fun e => hfc (e ▸ List.mem_map.2 ⟨p, hp, rfl⟩)
      dsimp only
      rw [upd_ne _ _ _ hpf, upd_ne _ _ _ hpf]
      exact h.cache_mem p hp
    · exact h.cache_sorted
    · exact h.cache_nodup
    · intro g h1 h2
      dsimp only at h1 h2 ⊢
      by_cases hgf : g = f
      · subst hgf; rw [upd_self] at h1; omega
      · rw [upd_ne _ _ _ hgf] at h1 h2
        exact (List.mem_erase_of_ne hgf).2 (h.tracked_new g h1 h2)
    · intro g h1
      dsimp only at h1 ⊢
      by_cases hgf : g = f
      · subst hgf; rw [upd_self] at h1; have := h.k_pos; omega
      · rw [upd_ne _ _ _ hgf] at h1
        exact h.tracked_cache g h1
    · intro g h1
      dsimp only at h1 ⊢
      by_cases hgf : g = f
      · subst hgf; rw [upd_self]
      · rw [upd_ne _ _ _ hgf] at h1
        rw [upd_ne _ _ _ hgf]
        exact h.hist_untracked g h1
    · intro g x hx
      dsimp only at hx ⊢
      by_cases hgf : g = f
      · subst hgf; rw [upd_self] at hx; cases hx
      · rw [upd_ne _ _ _ hgf] at hx
        exact h.hist_le g x hx
    · dsimp only
      have e1 := length_filter_erase hf (fun g => s.evictable g)
      rw [hev] at e1
      simp only [if_true, reduceIte] at e1
      have hsz := h.size_eq
      omega
  · rw [if_neg hk]
    have hfm : f ∈ s.cacheFrame.map Prod.fst := h.tracked_cache f (by omega)
    obtain ⟨q, hq, hqf⟩ := List.mem_map.mp hfm
    have hfn : f ∉ s.newFrame := h.cache_not_new hfm
    have hce : f ∉ (cacheErase f s.cacheFrame).map Prod.fst :=
      not_mem_map_cacheErase h.cache_nodup hq hqf
    refine ⟨h.k_pos, ?_, ?_, ?_, ?_, ?_, ?_, ?_, ?_, ?_, ?_⟩
    · intro g hg
      have hgf : g ≠ f := fun e => hfn (e ▸ hg)
      dsimp only
      rw [upd_ne _ _ _ hgf, upd_ne _ _ _ hgf]
      exact h.new_mem g hg
    · exact pairwise_heads_upd_of_not_mem hfn _ h.new_sorted
    · intro p hp
      have hp' : p ∈ cacheErase f s.cacheFrame := hp
      have hps : p ∈ s.cacheFrame := (cacheErase_sublist f _).mem hp'
      have hpf : p.1 ≠ f := fun e => by
        have hm : p.1 ∈ (cacheErase f s.cacheFrame).map Prod.fst :=
          List.mem_map.2 ⟨p, hp', rfl⟩
        rw [e] at hm
        exact hce hm
      dsimp only
      rw [upd_ne _ _ _ hpf, upd_ne _ _ _ hpf]
      exact h.cache_mem p hps
    · exact h.cache_sorted.sublist (cacheErase_sublist f _)
    · exact h.cache_nodup.sublist ((cacheErase_sublist f _).map Prod.fst)
    · intro g h1 h2
      dsimp only at h1 h2 ⊢
      by_cases hgf : g = f
      · subst hgf; rw [upd_self] at h1; omega
      · rw [upd_ne _ _ _ hgf] at h1 h2
        exact h.tracked_new g h1 h2
    · intro g h1
      dsimp only at h1 ⊢
      by_cases hgf : g = f
      · subst hgf; rw [upd_self] at h1; have := h.k_pos; omega
      · rw [upd_ne _ _ _ hgf] at h1
        exact mem_map_cacheErase_of_ne h.cache_nodup hq hqf
          (h.tracked_cache g h1) hgf
    · intro g h1
      dsimp only at h1 ⊢
      by_cases hgf : g = f
      · subst hgf; rw [upd_self]
      · rw [upd_ne _ _ _ hgf] at h1
        rw [upd_ne _ _ _ hgf]
        exact h.hist_untracked g h1
    · intro g x hx
      dsimp only at hx ⊢
      by_cases hgf : g = f
      · subst hgf; rw [upd_self] at hx; cases hx
      · rw [upd_ne _ _ _ hgf] at hx
        exact h.hist_le g x hx
    · dsimp only
      have e1 := length_filter_cacheErase h.cache_nodup hq hqf
        (fun p => s.evictable p.1)
      rw [hqf, hev] at e1
      simp only [if_true, reduceIte] at e1
      have hsz := h.size_eq
      omega

/-- The operation `Evict` preserves the invariant. -/
theorem inv_evict (s : LRUKReplacer) (h : Inv s) : Inv (evict s).2 := by
  unfold evict
  by_cases h0 : s.currSize = 0
  · rw [if_pos h0]; exact h
  rw [if_neg h0]
  cases hfind : s.newFrame.reverse.find? (fun g => s.evictable g) with
  | some f =>
    have hf : f ∈ s.newFrame := by
      have := List.mem_of_find?_eq_some hfind
      rwa [List.mem_reverse] at this
    have hev : s.evictable f = true := List.find?_some hfind
    have hnd := h.new_nodup
    have hfe : f ∉ s.newFrame.erase f := hnd.not_mem_erase
    have hfc : f ∉ s.cacheFrame.map Prod.fst := h.new_not_cache hf
    have hfilter : s.newFrame.filter (fun g => decide (g ≠ f))
        = s.newFrame.erase f := by
      rw [hnd.erase_eq_filter]
      exact List.filter_congr (fun x _ => by simp [bne, Bool.beq_eq_decide_eq])
    dsimp only
    rw [hfilter]
    refine ⟨h.k_pos, ?_, ?_, ?_, ?_, ?_, ?_, ?_, ?_, ?_, ?_⟩
    · intro g hg
      have hgn : g ∈ s.newFrame := List.mem_of_mem_erase hg
      have hgf : g ≠ f := fun e => hfe (e ▸ hg)
      dsimp only
      rw [upd_ne _ _ _ hgf, upd_ne _ _ _ hgf]
      exact h.new_mem g hgn
    · exact pairwise_heads_upd_of_not_mem hfe _
        (h.new_sorted.sublist (List.erase_sublist f s.newFrame))
    · intro p hp
      have hpf : p.1 ≠ f := fun e => hfc (e ▸ List.mem_map.2 ⟨p, hp, rfl⟩)
      dsimp only
      rw [upd_ne _ _ _ hpf, upd_ne _ _ _ hpf]
      exact h.cache_mem p hp
    · exact h.cache_sorted
    · exact h.cache_nodup
    · intro g h1 h2
      dsimp only at h1 h2 ⊢
      by_cases hgf : g = f
      · subst hgf; rw [upd_self] at h1; omega
      · rw [upd_ne _ _ _ hgf] at h1 h2
        exact (List.mem_erase_of_ne hgf).2 (h.tracked_new g h1 h2)
    · intro g h1
      dsimp only at h1 ⊢
      by_cases hgf : g = f
      · subst hgf; rw [upd_self] at h1; have := h.k_pos; omega
      · rw [upd_ne _ _ _ hgf] at h1
        exact h.tracked_cache g h1
    · intro g h1
      dsimp only at h1 ⊢
      by_cases hgf : g = f
      · subst hgf; rw [upd_self]
      · rw [upd_ne _ _ _ hgf] at h1
        rw [upd_ne _ _ _ hgf]
        exact h.hist_untracked g h1
    · intro g x hx
      dsimp only at hx ⊢
      by_cases hgf : g = f
      · subst hgf; rw [upd_self] at hx; cases hx
      · rw [upd_ne _ _ _ hgf] at hx
        exact h.hist_le g x hx
    · dsimp only
      have e1 := length_filter_erase hf (fun g => s.evictable g)
      rw [hev] at e1
      simp only [if_true, reduceIte] at e1
      have hsz := h.size_eq
      omega
  | none =>
    cases hscan : cacheScan s.evictable s.cacheFrame with
    | none => exact h
    | some r =>
      obtain ⟨p, rest⟩ := r
      obtain ⟨hev, hpm, hperm, hsub⟩ := cacheScan_some hscan
      have hfm : p.1 ∈ s.cacheFrame.map Prod.fst := List.mem_map.2 ⟨p, hpm, rfl⟩
      have hfn : p.1 ∉ s.newFrame := h.cache_not_new hfm
      have hmapperm := hperm.map Prod.fst
      have hnodup_cons : (p.1 :: rest.map Prod.fst).Nodup := by
        have := hmapperm.nodup_iff.mp h.cache_nodup
        simpa using this
      have hprest : p.1 ∉ rest.map Prod.fst := by
        rw [List.nodup_cons] at hnodup_cons
        exact hnodup_cons.1
      refine ⟨h.k_pos, ?_, ?_, ?_, ?_, ?_, ?_, ?_, ?_, ?_, ?_⟩
      · intro g hg
        have hgf : g ≠ p.1 := fun e => hfn (e ▸ hg)
        dsimp only
        rw [upd_ne _ _ _ hgf, upd_ne _ _ _ hgf]
        exact h.new_mem g hg
      · exact pairwise_heads_upd_of_not_mem hfn _ h.new_sorted
      · intro q hq
        have hqs : q ∈ s.cacheFrame := hsub.mem hq
        have hqf : q.1 ≠ p.1 := fun e =>
          hprest (e ▸ List.mem_map.2 ⟨q, hq, rfl⟩)
        dsimp only
        rw [upd_ne _ _ _ hqf, upd_ne _ _ _ hqf]
        exact h.cache_mem q hqs
      · exact h.cache_sorted.sublist hsub
      · exact h.cache_nodup.sublist (hsub.map Prod.fst)
      · intro g h1 h2
        dsimp only at h1 h2 ⊢
        by_cases hgf : g = p.1
        · subst hgf; rw [upd_self] at h1; omega
        · rw [upd_ne _ _ _ hgf] at h1 h2
          exact h.tracked_new g h1 h2
      · intro g h1
        dsimp only at h1 ⊢
        by_cases hgf : g = p.1
        · subst hgf; rw [upd_self] at h1; have := h.k_pos; omega
        · rw [upd_ne _ _ _ hgf] at h1
          have := h.tracked_cache g h1
          have hmem : g ∈ p.1 :: rest.map Prod.fst := hmapperm.mem_iff.mp this
          rw [List.mem_cons] at hmem
          rcases hmem with rfl | hmem
          · exact absurd rfl hgf
          · exact hmem
      · intro g h1
        dsimp only at h1 ⊢
        by_cases hgf : g = p.1
        · subst hgf; rw [upd_self]
        · rw [upd_ne _ _ _ hgf] at h1
          rw [upd_ne _ _ _ hgf]
          exact h.hist_untracked g h1
      · intro g x hx
        dsimp only at hx ⊢
        by_cases hgf : g = p.1
        · subst hgf; rw [upd_self] at hx; cases hx
        · rw [upd_ne _ _ _ hgf] at hx
          exact h.hist_le g x hx
      · dsimp only
        have e1 := ((hperm.filter (fun q => s.evictable q.1)).length_eq)
        rw [List.filter_cons] at e1
        rw [hev] at e1
        simp only [if_true, reduceIte] at e1
        have hsz := h.size_eq
        simp only [List.length_cons] at e1
        omega

/-- All history entries stay bounded after appending the new tick. -/
theorem hist_le_append {s : LRUKReplacer} (h : Inv s) (f : Nat) :
    ∀ g, ∀ x ∈ (upd s.hist f (s.hist f ++ [s.ts + 1])) g, x ≤ s.ts + 1 := by
  intro g x hx
  by_cases hgf : g = f
  · subst hgf
    rw [upd_self] at hx
    rw [List.mem_append] at hx
    rcases hx with hx | hx
    · exact le_trans (h.hist_le g x hx) (Nat.le_succ _)
    · simp at hx; omega
  · rw [upd_ne _ _ _ hgf] at hx
    exact le_trans (h.hist_le g x hx) (Nat.le_succ _)

/-- Appending a tick to one history preserves the below-K queue's strict
head ordering (heads do not move). -/
theorem new_sorted_append {s : LRUKReplacer} (h : Inv s) (f : Nat) :
    s.newFrame.Pairwise (fun a b =>
      ((upd s.hist f (s.hist f ++ [s.ts + 1])) b).headD 0
        < ((upd s.hist f (s.hist f ++ [s.ts + 1])) a).headD 0) := by
  refine h.new_sorted.imp_of_mem (fun {a b} ha hb hr => ?_)
  have key : ∀ c ∈ s.newFrame,
      ((upd s.hist f (s.hist f ++ [s.ts + 1])) c).headD 0
        = (s.hist c).headD 0 := by
    intro c hc
    by_cases hcf : c = f
    · subst hcf
      rw [upd_self]
      exact headD_append _ (h.new_hist_ne hc)
    · rw [upd_ne _ _ _ hcf]
  rw [key a ha, key b hb]
  exact hr

/-- Invariant preservation for `RecordAccess`, below-K path: the frame was
tracked with fewer than K−1 accesses, so only its count, history and the
clock move. -/
theorem inv_ra_below (s : LRUKReplacer) (f : Nat) (h : Inv s)
    (hge : 1 ≤ s.cnt f) (hlt : s.cnt f + 1 < s.k) :
    Inv ⟨s.numFrames, s.k, s.maxSize, s.currSize, s.ts + 1, s.newFrame,
      s.cacheFrame, upd s.cnt f (s.cnt f + 1),
      upd s.hist f (s.hist f ++ [s.ts + 1]), s.evictable⟩ := by
  have hf : f ∈ s.newFrame := h.tracked_new f hge (by omega)
  have hfc : f ∉ s.cacheFrame.map Prod.fst := h.new_not_cache hf
  refine ⟨h.k_pos, ?_, ?_, ?_, ?_, ?_, ?_, ?_, ?_, ?_, ?_⟩
  · intro g hg
    dsimp only
    by_cases hgf : g = f
    · subst hgf
      rw [upd_self, upd_self]
      refine ⟨by omega, by omega, ?_⟩
      rw [List.length_append]
      have := (h.new_mem g hg).2.2
      simp [this]
    · rw [upd_ne _ _ _ hgf, upd_ne _ _ _ hgf]
      exact h.new_mem g hg
  · exact new_sorted_append h f
  · intro p hp
    have hpf : p.1 ≠ f := fun e => hfc (by rw [← e]; exact List.mem_map.2 ⟨p, hp, rfl⟩)
    dsimp only
    rw [upd_ne _ _ _ hpf, upd_ne _ _ _ hpf]
    exact h.cache_mem p hp
  · exact h.cache_sorted
  · exact h.cache_nodup
  · intro g h1 h2
    dsimp only at h1 h2 ⊢
    by_cases hgf : g = f
    · subst hgf; exact hf
    · rw [upd_ne _ _ _ hgf] at h1 h2
      exact h.tracked_new g h1 h2
  · intro g h1
    dsimp only at h1 ⊢
    by_cases hgf : g = f
    · subst hgf; rw [upd_self] at h1; omega
    · rw [upd_ne _ _ _ hgf] at h1
      exact h.tracked_cache g h1
  · intro g h1
    dsimp only at h1 ⊢
    by_cases hgf : g = f
    · subst hgf; rw [upd_self] at h1; omega
    · rw [upd_ne _ _ _ hgf] at h1
      rw [upd_ne _ _ _ hgf]
      exact h.hist_untracked g h1
  · exact hist_le_append h f
  · exact h.size_eq

/-- Invariant preservation for `RecordAccess`, promotion path: the K-th access
moves the frame from the below-K queue into the cache queue, keyed by the
head of its (now length-K) history. -/
theorem inv_ra_promote (s : LRUKReplacer) (f : Nat) (h : Inv s)
    (hge : 1 ≤ s.cnt f) (heq : s.cnt f + 1 = s.k) :
    Inv (raTail ⟨s.numFrames, s.k, s.maxSize, s.currSize, s.ts + 1,
      s.newFrame, s.cacheFrame, upd s.cnt f (s.cnt f + 1),
      upd s.hist f (s.hist f ++ [s.ts + 1]), s.evictable⟩ f (s.cnt f + 1)) := by
  have hf : f ∈ s.newFrame := h.tracked_new f hge (by omega)
  have hfc : f ∉ s.cacheFrame.map Prod.fst := h.new_not_cache hf
  have hnd := h.new_nodup
  have hfe : f ∉ s.newFrame.erase f := hnd.not_mem_erase
  have hne : s.hist f ≠ [] := h.new_hist_ne hf
  have hlen : (s.hist f).length = s.cnt f := (h.new_mem f hf).2.2
  unfold raTail
  dsimp only
  rw [if_pos heq, upd_self, headD_append _ hne]
  refine ⟨h.k_pos, ?_, ?_, ?_, ?_, ?_, ?_, ?_, ?_, ?_, ?_⟩
  · intro g hg
    have hg' : g ∈ s.newFrame.erase f := hg
    obtain ⟨hgf, hgn⟩ := hnd.mem_erase_iff.mp hg'
    dsimp only
    rw [upd_ne _ _ _ hgf, upd_ne _ _ _ hgf]
    exact h.new_mem g hgn
  · exact (new_sorted_append h f).sublist (List.erase_sublist f s.newFrame)
  · intro p hp
    dsimp only at hp ⊢
    rw [mem_insertCache] at hp
    rcases hp with rfl | hp
    · dsimp only
      rw [upd_self, upd_self]
      refine ⟨by omega, ?_, ?_⟩
      · rw [List.length_append, hlen]
        simp
        omega
      · rw [headD_append _ hne]
    · have hpf : p.1 ≠ f := fun e =>
        hfc (by rw [← e]; exact List.mem_map.2 ⟨p, hp, rfl⟩)
      rw [upd_ne _ _ _ hpf, upd_ne _ _ _ hpf]
      exact h.cache_mem p hp
  · exact insertCache_sorted h.cache_sorted
  · exact nodup_map_insertCache h.cache_nodup hfc
  · intro g h1 h2
    dsimp only at h1 h2 ⊢
    by_cases hgf : g = f
    · subst hgf; rw [upd_self] at h1 h2; omega
    · rw [upd_ne _ _ _ hgf] at h1 h2
      exact (List.mem_erase_of_ne hgf).2 (h.tracked_new g h1 h2)
  · intro g h1
    dsimp only at h1 ⊢
    by_cases hgf : g = f
    · subst hgf
      rw [mem_map_insertCache]
      exact Or.inl rfl
    · rw [upd_ne _ _ _ hgf] at h1
      rw [mem_map_insertCache]
      exact Or.inr (h.tracked_cache g h1)
  · intro g h1
    dsimp only at h1 ⊢
    by_cases hgf : g = f
    · subst hgf; rw [upd_self] at h1; omega
    · rw [upd_ne _ _ _ hgf] at h1
      rw [upd_ne _ _ _ hgf]
      exact h.hist_untracked g h1
  · exact hist_le_append h f
  · dsimp only
    have e1 := length_filter_erase hf (fun g => s.evictable g)
    have e2 := length_filter_insertCache (f, (s.hist f).headD 0) s.cacheFrame
      (fun p => s.evictable p.1)
    have hsz := h.size_eq
    by_cases hev : s.evictable f
    · simp only [hev, if_true, reduceIte] at e1 e2
      omega
    · simp only [hev, Bool.false_eq_true, if_false, reduceIte] at e1 e2
      omega

/-- Invariant preservation for `RecordAccess`, above-K path: drop the oldest
history tick, append the new one, and re-splice the frame's cache entry at
its new K-th-access time. -/
theorem inv_ra_above (s : LRUKReplacer) (f : Nat) (h : Inv s)
    (hge : s.k ≤ s.cnt f) :
    Inv (raTail ⟨s.numFrames, s.k, s.maxSize, s.currSize, s.ts + 1,
      s.newFrame, s.cacheFrame, upd s.cnt f (s.cnt f + 1),
      upd s.hist f (s.hist f ++ [s.ts + 1]), s.evictable⟩ f (s.cnt f + 1)) := by
  obtain ⟨q, hqm, hqf⟩ := List.mem_map.mp (h.tracked_cache f hge)
  have hklen : (s.hist f).length = s.k := by
    have := (h.cache_mem q hqm).2.1
    rwa [hqf] at this
  have hkpos := h.k_pos
  have hne : s.hist f ≠ [] := by
    intro e
    rw [e] at hklen
    simp at hklen
    omega
  have hfm : f ∈ s.cacheFrame.map Prod.fst := h.tracked_cache f hge
  have hfn : f ∉ s.newFrame := h.cache_not_new hfm
  have hce : f ∉ (cacheErase f s.cacheFrame).map Prod.fst :=
    not_mem_map_cacheErase h.cache_nodup hqm hqf
  have hcesub := cacheErase_sublist f s.cacheFrame
  unfold raTail
  dsimp only
  rw [if_neg (by omega), if_pos (by omega), upd_self,
    tail_append_of_ne_nil _ hne, upd_upd]
  refine ⟨h.k_pos, ?_, ?_, ?_, ?_, ?_, ?_, ?_, ?_, ?_, ?_⟩
  · intro g hg
    have hgf : g ≠ f := fun e => hfn (by rw [← e]; exact hg)
    dsimp only
    rw [upd_ne _ _ _ hgf, upd_ne _ _ _ hgf]
    exact h.new_mem g hg
  · exact pairwise_heads_upd_of_not_mem hfn _ h.new_sorted
  · intro p hp
    dsimp only at hp ⊢
    rw [mem_insertCache] at hp
    rcases hp with rfl | hp
    · dsimp only
      rw [upd_self, upd_self]
      refine ⟨by omega, ?_, rfl⟩
      rw [List.length_append, List.length_tail, hklen]
      simp
      omega
    · have hps : p ∈ s.cacheFrame := hcesub.mem hp
      have hpf : p.1 ≠ f := fun e => by
        have hm : p.1 ∈ (cacheErase f s.cacheFrame).map Prod.fst :=
          List.mem_map.2 ⟨p, hp, rfl⟩
        rw [e] at hm
        exact hce hm
      rw [upd_ne _ _ _ hpf, upd_ne _ _ _ hpf]
      exact h.cache_mem p hps
  · exact insertCache_sorted (h.cache_sorted.sublist hcesub)
  · exact nodup_map_insertCache (h.cache_nodup.sublist (hcesub.map Prod.fst)) hce
  · intro g h1 h2
    dsimp only at h1 h2 ⊢
    by_cases hgf : g = f
    · subst hgf; rw [upd_self] at h1 h2; omega
    · rw [upd_ne _ _ _ hgf] at h1 h2
      exact h.tracked_new g h1 h2
  · intro g h1
    dsimp only at h1 ⊢
    by_cases hgf : g = f
    · subst hgf
      rw [mem_map_insertCache]
      exact Or.inl rfl
    · rw [upd_ne _ _ _ hgf] at h1
      rw [mem_map_insertCache]
      exact Or.inr (mem_map_cacheErase_of_ne h.cache_nodup hqm hqf
        (h.tracked_cache g h1) hgf)
  · intro g h1
    dsimp only at h1 ⊢
    by_cases hgf : g = f
    · subst hgf; rw [upd_self] at h1; omega
    · rw [upd_ne _ _ _ hgf] at h1
      rw [upd_ne _ _ _ hgf]
      exact h.hist_untracked g h1
  · intro g x hx
    dsimp only at hx ⊢
    by_cases hgf : g = f
    · subst hgf
      rw [upd_self] at hx
      rw [List.mem_append] at hx
      rcases hx with hx | hx
      · exact le_trans (h.hist_le g x (List.mem_of_mem_tail hx)) (Nat.le_succ _)
      · simp at hx; omega
    · rw [upd_ne _ _ _ hgf] at hx
      exact le_trans (h.hist_le g x hx) (Nat.le_succ _)
  · dsimp only
    have e1 := length_filter_cacheErase h.cache_nodup hqm hqf
      (fun p => s.evictable p.1)
    have e2 := length_filter_insertCache
      (f, ((s.hist f).tail ++ [s.ts + 1]).headD 0) (cacheErase f s.cacheFrame)
      (fun p => s.evictable p.1)
    rw [hqf] at e1
    have hsz := h.size_eq
    by_cases hev : s.evictable f
    · simp only [hev, if_true, reduceIte] at e1 e2
      omega
    · simp only [hev, Bool.false_eq_true, if_false, reduceIte] at e1 e2
      omega

/-- Invariant preservation for `RecordAccess`, first-access path (not at
capacity): the frame becomes evictable, joins the head of the below-K
queue, and — when K = 1 — is promoted immediately. -/
theorem inv_ra_fresh (s : LRUKReplacer) (f : Nat) (h : Inv s)
    (h0 : s.cnt f = 0) :
    Inv (raTail ⟨s.numFrames, s.k, s.maxSize, s.currSize + 1, s.ts + 1,
      f :: s.newFrame, s.cacheFrame, upd s.cnt f 1,
      upd s.hist f (s.hist f ++ [s.ts + 1]), upd s.evictable f true⟩ f 1) := by
  have hh : s.hist f = [] := h.hist_untracked f h0
  have hfn : f ∉ s.newFrame := h.untracked_not_new h0
  have hfc : f ∉ s.cacheFrame.map Prod.fst := h.untracked_not_cache h0
  have hkpos := h.k_pos
  unfold raTail
  dsimp only
  by_cases hk1 : 1 = s.k
  · rw [if_pos hk1, List.erase_cons_head, upd_self]
    have hempty : s.newFrame = [] :=
      List.eq_nil_iff_forall_not_mem.mpr (fun g hg => by
        have := h.new_mem g hg
        omega)
    refine ⟨h.k_pos, ?_, ?_, ?_, ?_, ?_, ?_, ?_, ?_, ?_, ?_⟩
    · intro g hg
      have hg' : g ∈ s.newFrame := hg
      rw [hempty] at hg'
      cases hg'
    · have : s.newFrame.Pairwise (fun a b =>
          ((upd s.hist f (s.hist f ++ [s.ts + 1])) b).headD 0
            < ((upd s.hist f (s.hist f ++ [s.ts + 1])) a).headD 0) := by
        rw [hempty]
        exact List.Pairwise.nil
      exact this
    · intro p hp
      dsimp only at hp ⊢
      rw [mem_insertCache] at hp
      rcases hp with rfl | hp
      · dsimp only
        rw [upd_self, upd_self]
        refine ⟨by omega, ?_, rfl⟩
        rw [List.length_append, hh]
        simp
        omega
      · have hpf : p.1 ≠ f := fun e =>
          hfc (by rw [← e]; exact List.mem_map.2 ⟨p, hp, rfl⟩)
        rw [upd_ne _ _ _ hpf, upd_ne _ _ _ hpf]
        exact h.cache_mem p hp
    · exact insertCache_sorted h.cache_sorted
    · exact nodup_map_insertCache h.cache_nodup hfc
    · intro g h1 h2
      dsimp only at h1 h2 ⊢
      rw [← hk1] at h2
      exact absurd h1 (by omega)
    · intro g h1
      dsimp only at h1 ⊢
      by_cases hgf : g = f
      · subst hgf
        rw [mem_map_insertCache]
        exact Or.inl rfl
      · rw [upd_ne _ _ _ hgf] at h1
        rw [mem_map_insertCache]
        exact Or.inr (h.tracked_cache g h1)
    · intro g h1
      dsimp only at h1 ⊢
      by_cases hgf : g = f
      · subst hgf; rw [upd_self] at h1; omega
      · rw [upd_ne _ _ _ hgf] at h1
        rw [upd_ne _ _ _ hgf]
        exact h.hist_untracked g h1
    · exact hist_le_append h f
    · dsimp only
      have e2 := length_filter_insertCache
        (f, (s.hist f ++ [s.ts + 1]).headD 0) s.cacheFrame
        (fun p => upd s.evictable f true p.1)
      rw [filter_upd_not_mem_fst hfc] at e2
      dsimp only at e2
      rw [upd_self] at e2
      simp only [if_true, reduceIte] at e2
      have hsz := h.size_eq
      rw [hempty] at hsz ⊢
      simp only [List.filter_nil, List.length_nil] at hsz ⊢
      omega
  · rw [if_neg hk1, if_neg (by omega : ¬ s.k < 1)]
    have hk2 : 2 ≤ s.k := by omega
    refine ⟨h.k_pos, ?_, ?_, ?_, ?_, ?_, ?_, ?_, ?_, ?_, ?_⟩
    · intro g hg
      have hg' : g ∈ f :: s.newFrame := hg
      rw [List.mem_cons] at hg'
      dsimp only
      rcases hg' with rfl | hg'
      · rw [upd_self, upd_self]
        refine ⟨by omega, by omega, ?_⟩
        rw [List.length_append, hh]
        simp
      · have hgf : g ≠ f := fun e => hfn (by rw [← e]; exact hg')
        rw [upd_ne _ _ _ hgf, upd_ne _ _ _ hgf]
        exact h.new_mem g hg'
    · refine List.pairwise_cons.2 ⟨?_, pairwise_heads_upd_of_not_mem hfn _ h.new_sorted⟩
      intro b hb
      have hbf : b ≠ f := fun e => hfn (by rw [← e]; exact hb)
      dsimp only
      rw [upd_ne _ _ _ hbf, upd_self, hh]
      simp only [List.nil_append, List.headD_cons]
      have hbm : (s.hist b).headD 0 ∈ s.hist b := headD_mem (h.new_hist_ne hb)
      have := h.hist_le b _ hbm
      omega
    · intro p hp
      have hpf : p.1 ≠ f := fun e =>
        hfc (by rw [← e]; exact List.mem_map.2 ⟨p, hp, rfl⟩)
      dsimp only
      rw [upd_ne _ _ _ hpf, upd_ne _ _ _ hpf]
      exact h.cache_mem p hp
    · exact h.cache_sorted
    · exact h.cache_nodup
    · intro g h1 h2
      dsimp only at h1 h2 ⊢
      by_cases hgf : g = f
      · subst hgf
        exact List.mem_cons_self _ _
      · rw [upd_ne _ _ _ hgf] at h1 h2
        exact List.mem_cons_of_mem f (h.tracked_new g h1 h2)
    · intro g h1
      dsimp only at h1 ⊢
      by_cases hgf : g = f
      · subst hgf; rw [upd_self] at h1; omega
      · rw [upd_ne _ _ _ hgf] at h1
        exact h.tracked_cache g h1
    · intro g h1
      dsimp only at h1 ⊢
      by_cases hgf : g = f
      · subst hgf; rw [upd_self] at h1; omega
      · rw [upd_ne _ _ _ hgf] at h1
        rw [upd_ne _ _ _ hgf]
        exact h.hist_untracked g h1
    · exact hist_le_append h f
    · dsimp only
      rw [List.filter_cons]
      rw [upd_self]
      simp only [if_true, reduceIte]
      rw [filter_upd_not_mem hfn, filter_upd_not_mem_fst hfc]
      have hsz := h.size_eq
      simp only [List.length_cons]
      omega

/-- The operation `RecordAccess` preserves the invariant whenever it returns. -/
theorem inv_recordAccess {s : LRUKReplacer} {f : Nat} {r : RAResult}
    {s' : LRUKReplacer} (h : Inv s)
    (hra : recordAccess s f = some (r, s')) : Inv s' := by
  simp only [recordAccess] at hra
  by_cases hr : s.numFrames < f
  · rw [if_pos hr] at hra
    injection hra with hra
    injection hra with _ h2
    rw [← h2]
    exact h
  rw [if_neg hr] at hra
  by_cases h1 : s.cnt f + 1 = 1
  · rw [if_pos h1] at hra
    by_cases hcap : s.currSize = s.maxSize
    · rw [if_pos hcap] at hra
      exact absurd hra (by simp)
    · rw [if_neg hcap] at hra
      injection hra with hra
      injection hra with _ h2
      rw [← h2, h1]
      exact inv_ra_fresh s f h (by omega)
  · rw [if_neg h1] at hra
    injection hra with hra
    injection hra with _ h2
    rw [← h2]
    have hge : 1 ≤ s.cnt f := by omega
    by_cases hpk : s.cnt f + 1 = s.k
    · exact inv_ra_promote s f h hge hpk
    · by_cases hak : s.k < s.cnt f + 1
      · exact inv_ra_above s f h (by omega)
      · unfold raTail
        dsimp only
        rw [if_neg hpk, if_neg hak]
        exact inv_ra_below s f h hge (by omega)

/-- One completed public call preserves the invariant. -/
theorem inv_rstep {s s' : LRUKReplacer} {op : ROp} (h : Inv s)
    (hs : rstep s op = some s') : Inv s' := by
  cases op with
  | ra f =>
    simp only [rstep] at hs
    cases hra : recordAccess s f with
    | none => rw [hra] at hs; cases hs
    | some p =>
      obtain ⟨r, st⟩ := p
      rw [hra] at hs
      injection hs with hs
      rw [← hs]
      exact inv_recordAccess h hra
  | se f b =>
    simp only [rstep] at hs
    injection hs with hs
    rw [← hs]
    exact inv_setEvictable s f b h
  | rm f =>
    simp only [rstep] at hs
    injection hs with hs
    rw [← hs]
    exact inv_removeFrame s f h
  | ev =>
    simp only [rstep] at hs
    injection hs with hs
    rw [← hs]
    exact inv_evict s h

/-- Every reachable replacer state satisfies the invariant. -/
theorem reach_inv {nf kk : Nat} {s : LRUKReplacer} (h : RReach nf kk s) :
    Inv s := by
  induction h with
  | init hk => exact inv_rinit nf kk hk
  | step op _ hs ih => exact inv_rstep ih hs

/-- The helper `raTail` never changes the access counts. -/
theorem raTail_cnt (s : LRUKReplacer) (f c : Nat) :
    (raTail s f c).cnt = s.cnt := by
  unfold raTail
  by_cases h1 : c = s.k
  · rw [if_pos h1]
  · rw [if_neg h1]
    by_cases h2 : s.k < c
    · rw [if_pos h2]
    · rw [if_neg h2]

/-- The helper `raTail` never changes K. -/
theorem raTail_k (s : LRUKReplacer) (f c : Nat) :
    (raTail s f c).k = s.k := by
  unfold raTail
  by_cases h1 : c = s.k
  · rw [if_pos h1]
  · rw [if_neg h1]
    by_cases h2 : s.k < c
    · rw [if_pos h2]
    · rw [if_neg h2]

/-- On a normal return, `RecordAccess` bumps the frame's count by one and
leaves K alone. -/
theorem recordAccess_ok_cnt {s : LRUKReplacer} {f : Nat} {r : RAResult}
    {s' : LRUKReplacer} (hra : recordAccess s f = some (r, s'))
    (hok : r = RAResult.ok) :
    s'.cnt f = s.cnt f + 1 ∧ s'.k = s.k := by
  simp only [recordAccess] at hra
  by_cases hr : s.numFrames < f
  · rw [if_pos hr] at hra
    injection hra with hra
    injection hra with h1 _
    rw [hok] at h1
    cases h1
  rw [if_neg hr] at hra
  by_cases h1 : s.cnt f + 1 = 1
  · rw [if_pos h1] at hra
    by_cases hcap : s.currSize = s.maxSize
    · rw [if_pos hcap] at hra
      cases hra
    · rw [if_neg hcap] at hra
      injection hra with hra
      injection hra with _ h2
      rw [← h2, raTail_cnt, raTail_k]
      dsimp only
      rw [upd_self]
      exact ⟨rfl, rfl⟩
  · rw [if_neg h1] at hra
    injection hra with hra
    injection hra with _ h2
    rw [← h2, raTail_cnt, raTail_k]
    dsimp only
    rw [upd_self]
    exact ⟨rfl, rfl⟩

/-- The operation `SetEvictable` never changes counts or K. -/
theorem setEvictable_cnt (s : LRUKReplacer) (f : Nat) (b : Bool) :
    (setEvictable s f b).cnt = s.cnt ∧ (setEvictable s f b).k = s.k := by
  unfold setEvictable
  by_cases h0 : s.cnt f = 0
  · rw [if_pos h0]; exact ⟨rfl, rfl⟩
  rw [if_neg h0]
  by_cases h1 : s.evictable f = true ∧ b = false
  · rw [if_pos h1]; exact ⟨rfl, rfl⟩
  rw [if_neg h1]
  by_cases h2 : s.evictable f = false ∧ b = true
  · rw [if_pos h2]; exact ⟨rfl, rfl⟩
  · rw [if_neg h2]; exact ⟨rfl, rfl⟩

/-- Across any completed public call, a frame's count is unchanged, bumped
by one, or reset to zero — it never decreases to a nonzero value. -/
theorem rstep_cnt {s s' : LRUKReplacer} {op : ROp}
    (hs : rstep s op = some s') :
    s'.k = s.k ∧ ∀ g, s'.cnt g = s.cnt g ∨ s'.cnt g = s.cnt g + 1 ∨
      s'.cnt g = 0 := by
  cases op with
  | ra f =>
    simp only [rstep] at hs
    cases hra : recordAccess s f with
    | none => rw [hra] at hs; cases hs
    | some p =>
      obtain ⟨r, st⟩ := p
      rw [hra] at hs
      injection hs with hs
      rw [← hs]
      simp only [recordAccess] at hra
      by_cases hr : s.numFrames < f
      · rw [if_pos hr] at hra
        injection hra with hra
        injection hra with _ h2
        rw [← h2]
        exact ⟨rfl, fun g => Or.inl rfl⟩
      rw [if_neg hr] at hra
      by_cases h1 : s.cnt f + 1 = 1
      · rw [if_pos h1] at hra
        by_cases hcap : s.currSize = s.maxSize
        · rw [if_pos hcap] at hra; cases hra
        · rw [if_neg hcap] at hra
          injection hra with hra
          injection hra with _ h2
          rw [← h2, raTail_cnt, raTail_k]
          refine ⟨rfl, fun g => ?_⟩
          dsimp only
          by_cases hgf : g = f
          · subst hgf; rw [upd_self]; exact Or.inr (Or.inl rfl)
          · rw [upd_ne _ _ _ hgf]; exact Or.inl rfl
      · rw [if_neg h1] at hra
        injection hra with hra
        injection hra with _ h2
        rw [← h2, raTail_cnt, raTail_k]
        refine ⟨rfl, fun g => ?_⟩
        dsimp only
        by_cases hgf : g = f
        · subst hgf; rw [upd_self]; exact Or.inr (Or.inl rfl)
        · rw [upd_ne _ _ _ hgf]; exact Or.inl rfl
  | se f b =>
    simp only [rstep] at hs
    injection hs with hs
    rw [← hs]
    obtain ⟨hc, hk⟩ := setEvictable_cnt s f b
    rw [hc, hk]
    exact ⟨rfl, fun g => Or.inl rfl⟩
  | rm f =>
    simp only [rstep] at hs
    injection hs with hs
    rw [← hs]
    unfold removeFrame
    by_cases hr : s.numFrames < f
    · rw [if_pos hr]; exact ⟨rfl, fun g => Or.inl rfl⟩
    rw [if_neg hr]
    by_cases h0 : s.cnt f = 0
    · rw [if_pos h0]; exact ⟨rfl, fun g => Or.inl rfl⟩
    rw [if_neg h0]
    by_cases he : s.evictable f = false
    · rw [if_pos he]; exact ⟨rfl, fun g => Or.inl rfl⟩
    rw [if_neg he]
    by_cases hk : s.cnt f < s.k
    · rw [if_pos hk]
      refine ⟨rfl, fun g => ?_⟩
      dsimp only
      by_cases hgf : g = f
      · subst hgf; rw [upd_self]; exact Or.inr (Or.inr rfl)
      · rw [upd_ne _ _ _ hgf]; exact Or.inl rfl
    · rw [if_neg hk]
      refine ⟨rfl, fun g => ?_⟩
      dsimp only
      by_cases hgf : g = f
      · subst hgf; rw [upd_self]; exact Or.inr (Or.inr rfl)
      · rw [upd_ne _ _ _ hgf]; exact Or.inl rfl
  | ev =>
    simp only [rstep] at hs
    injection hs with hs
    rw [← hs]
    unfold evict
    by_cases h0 : s.currSize = 0
    · rw [if_pos h0]; exact ⟨rfl, fun g => Or.inl rfl⟩
    rw [if_neg h0]
    cases hfind : s.newFrame.reverse.find? (fun g => s.evictable g) with
    | some f =>
      refine ⟨rfl, fun g => ?_⟩
      dsimp only
      by_cases hgf : g = f
      · subst hgf; rw [upd_self]; exact Or.inr (Or.inr rfl)
      · rw [upd_ne _ _ _ hgf]; exact Or.inl rfl
    | none =>
      cases hscan : cacheScan s.evictable s.cacheFrame with
      | none => exact ⟨rfl, fun g => Or.inl rfl⟩
      | some r =>
        refine ⟨rfl, fun g => ?_⟩
        dsimp only
        by_cases hgf : g = r.1.1
        · subst hgf; rw [upd_self]; exact Or.inr (Or.inr rfl)
        · rw [upd_ne _ _ _ hgf]; exact Or.inl rfl

end LRUKReplacer

/-- Witness for C4 at the concrete six-insert run (global depth 2, several
splits). -/
theorem c4_witness : EHT.dirInv c1r6.2 :=
  c4_directory_invariant identityHash 2 _
    (EHT.EReach.insert 64 6 6
      (EHT.EReach.insert 64 2 2
        (EHT.EReach.insert 64 0 0
          (EHT.EReach.insert 64 7 7
            (EHT.EReach.insert 64 3 3
              (EHT.EReach.insert 64 1 1 EHT.EReach.init))))))

section ReplacerClaims
open LRUKReplacer

/-- The concrete scenario state is reachable (K = 2 ≥ 1, four completed
`RecordAccess` calls). -/
theorem c3s_reach : RReach 3 2 c3s :=
  RReach.step (.ra 1)
    (RReach.step (.ra 3)
      (RReach.step (.ra 2)
        (RReach.step (.ra 1) (RReach.init (by omega)) rfl) rfl) rfl) rfl

/-- C2: on every reachable state, `Evict` prefers the below-K queue —
returning the evictable below-K frame with the earliest first access — and
only otherwise returns the evictable cache frame with the smallest
K-th-most-recent access timestamp; with nothing evictable it returns
nothing. -/
theorem c2_eviction_order {nf kk : Nat} {s : LRUKReplacer}
    (h : RReach nf kk s) :
    ((∃ f ∈ s.newFrame, s.evictable f = true) →
      ∃ f, (evict s).1 = some f ∧ f ∈ s.newFrame ∧ s.evictable f = true ∧
        ∀ g ∈ s.newFrame, s.evictable g = true →
          (s.hist f).headD 0 ≤ (s.hist g).headD 0) ∧
    ((∀ f ∈ s.newFrame, s.evictable f = false) →
      (∃ p ∈ s.cacheFrame, s.evictable p.1 = true) →
      ∃ p, (evict s).1 = some p.1 ∧ p ∈ s.cacheFrame ∧
        s.evictable p.1 = true ∧
        ∀ q ∈ s.cacheFrame, s.evictable q.1 = true → p.2 ≤ q.2) ∧
    ((∀ f ∈ s.newFrame, s.evictable f = false) →
      (∀ p ∈ s.cacheFrame, s.evictable p.1 = false) →
      (evict s).1 = none) := by
  have inv := reach_inv h
  refine ⟨?_, ?_, ?_⟩
  · rintro ⟨f0, hf0, hev0⟩
    have hcurr : s.currSize ≠ 0 := by
      have hm : f0 ∈ s.newFrame.filter (fun g => s.evictable g) :=
        List.mem_filter.2 ⟨hf0, hev0⟩
      have := List.length_pos.2 (List.ne_nil_of_mem hm)
      have hsz := inv.size_eq
      omega
    have hsome : (s.newFrame.reverse.find? (fun g => s.evictable g)).isSome :=
      List.find?_isSome.2 ⟨f0, List.mem_reverse.2 hf0, hev0⟩
    obtain ⟨f, hfind⟩ := Option.isSome_iff_exists.mp hsome
    have hf : f ∈ s.newFrame := by
      have := List.mem_of_find?_eq_some hfind
      rwa [List.mem_reverse] at this
    have hev : s.evictable f = true := List.find?_some hfind
    have heq : (evict s).1 = some f := by
      unfold evict
      rw [if_neg hcurr, hfind]
    have hrev : s.newFrame.reverse.Pairwise
        (fun a b => (s.hist a).headD 0 < (s.hist b).headD 0) :=
      List.pairwise_reverse.mpr inv.new_sorted
    refine ⟨f, heq, hf, hev, ?_⟩
    intro g hg hevg
    have := find?_pairwise_min hrev hfind g (List.mem_reverse.2 hg) hevg
    rcases this with rfl | hlt
    · exact le_refl _
    · exact le_of_lt hlt
  · rintro hnone ⟨p0, hp0, hev0⟩
    have hcurr : s.currSize ≠ 0 := by
      have hm : p0 ∈ s.cacheFrame.filter (fun p => s.evictable p.1) :=
        List.mem_filter.2 ⟨hp0, hev0⟩
      have := List.length_pos.2 (List.ne_nil_of_mem hm)
      have hsz := inv.size_eq
      omega
    have hfind : s.newFrame.reverse.find? (fun g => s.evictable g) = none := by
      rw [List.find?_eq_none]
      intro x hx
      rw [List.mem_reverse] at hx
      rw [hnone x hx]
      simp
    have hsome : (cacheScan s.evictable s.cacheFrame).isSome :=
      cacheScan_isSome ⟨p0, hp0, hev0⟩
    obtain ⟨r, hscan⟩ := Option.isSome_iff_exists.mp hsome
    obtain ⟨p, rest⟩ := r
    obtain ⟨hev, hpm, _, _⟩ := cacheScan_some hscan
    have heq : (evict s).1 = some p.1 := by
      unfold evict
      rw [if_neg hcurr, hfind, hscan]
    exact ⟨p, heq, hpm, hev, cacheScan_min inv.cache_sorted hscan⟩
  · intro hn hc
    have hcurr : s.currSize = 0 := by
      have h1 : s.newFrame.filter (fun g => s.evictable g) = [] :=
        List.filter_eq_nil.2 (fun a ha => by rw [hn a ha]; simp)
      have h2 : s.cacheFrame.filter (fun p => s.evictable p.1) = [] :=
        List.filter_eq_nil.2 (fun a ha => by rw [hc a ha]; simp)
      have hsz := inv.size_eq
      rw [h1, h2] at hsz
      simpa using hsz
    unfold evict
    rw [if_pos hcurr]

/-- Witness for C2 at the concrete reachable scenario state (K = 2,
accesses 1, 2, 3, 1): the below-K case fires. -/
theorem c2_witness :
    ∃ f, (evict c3s).1 = some f ∧ f ∈ c3s.newFrame ∧
      c3s.evictable f = true ∧
      ∀ g ∈ c3s.newFrame, c3s.evictable g = true →
        (c3s.hist f).headD 0 ≤ (c3s.hist g).headD 0 :=
  (c2_eviction_order c3s_reach).1 (by decide)

/-- C6: on every reachable state each frame is in exactly one of
{untracked, below-K queue, at/above-K queue}; a completed `RecordAccess`
puts the frame in the cache queue exactly when its new count reaches K and
in the below-K queue exactly when it stays under K; and no completed call
ever moves a cache frame back into the below-K queue. -/
theorem c6_membership_promotion {nf kk : Nat} {s : LRUKReplacer}
    (h : RReach nf kk s) :
    (∀ f, (s.cnt f = 0 ∧ f ∉ s.newFrame ∧ f ∉ s.cacheFrame.map Prod.fst) ∨
      (1 ≤ s.cnt f ∧ s.cnt f < s.k ∧ f ∈ s.newFrame ∧
        f ∉ s.cacheFrame.map Prod.fst) ∨
      (s.k ≤ s.cnt f ∧ f ∉ s.newFrame ∧ f ∈ s.cacheFrame.map Prod.fst)) ∧
    (∀ f s', recordAccess s f = some (RAResult.ok, s') →
      ((f ∈ s'.cacheFrame.map Prod.fst ↔ s.k ≤ s.cnt f + 1) ∧
       (f ∈ s'.newFrame ↔ s.cnt f + 1 < s.k))) ∧
    (∀ op s', rstep s op = some s' →
      ∀ f, f ∈ s.cacheFrame.map Prod.fst → f ∉ s'.newFrame) := by
  have inv := reach_inv h
  refine ⟨?_, ?_, ?_⟩
  · intro f
    by_cases h0 : s.cnt f = 0
    · exact Or.inl ⟨h0, inv.untracked_not_new h0, inv.untracked_not_cache h0⟩
    by_cases hk : s.cnt f < s.k
    · refine Or.inr (Or.inl ⟨by omega, hk, inv.tracked_new f (by omega) hk, ?_⟩)
      exact inv.new_not_cache (inv.tracked_new f (by omega) hk)
    · refine Or.inr (Or.inr ⟨by omega, ?_, inv.tracked_cache f (by omega)⟩)
      exact inv.cache_not_new (inv.tracked_cache f (by omega))
  · intro f s' hra
    have inv' : Inv s' := inv_recordAccess inv hra
    obtain ⟨hc, hk⟩ := recordAccess_ok_cnt hra rfl
    constructor
    · constructor
      · intro hm
        have := inv'.mem_cache_cnt hm
        rw [hc, hk] at this
        exact this
      · intro hge
        have := inv'.tracked_cache f (by rw [hc, hk]; exact hge)
        exact this
    · constructor
      · intro hm
        have := (inv'.new_mem f hm).2.1
        rw [hc, hk] at this
        exact this
      · intro hlt
        exact inv'.tracked_new f (by rw [hc]; omega) (by rw [hc, hk]; exact hlt)
  · intro op s' hs f hf
    have inv' : Inv s' := inv_rstep inv hs
    obtain ⟨hk, hcnt⟩ := rstep_cnt hs
    have hge : s.k ≤ s.cnt f := inv.mem_cache_cnt hf
    have hkpos := inv.k_pos
    intro hmem
    have h1 := (inv'.new_mem f hmem).1
    have h2 := (inv'.new_mem f hmem).2.1
    rw [hk] at h2
    rcases hcnt f with hcf | hcf | hcf <;> omega

/-- Witness for C6 at the concrete reachable scenario state: the partition
holds there for frame 1 (promoted to the cache queue) and for frame 3
(still below-K). -/
theorem c6_witness :
    ((c3s.cnt 1 = 0 ∧ 1 ∉ c3s.newFrame ∧
        1 ∉ c3s.cacheFrame.map Prod.fst) ∨
      (1 ≤ c3s.cnt 1 ∧ c3s.cnt 1 < c3s.k ∧ 1 ∈ c3s.newFrame ∧
        1 ∉ c3s.cacheFrame.map Prod.fst) ∨
      (c3s.k ≤ c3s.cnt 1 ∧ 1 ∉ c3s.newFrame ∧
        1 ∈ c3s.cacheFrame.map Prod.fst)) ∧
    ((c3s.cnt 3 = 0 ∧ 3 ∉ c3s.newFrame ∧
        3 ∉ c3s.cacheFrame.map Prod.fst) ∨
      (1 ≤ c3s.cnt 3 ∧ c3s.cnt 3 < c3s.k ∧ 3 ∈ c3s.newFrame ∧
        3 ∉ c3s.cacheFrame.map Prod.fst) ∨
      (c3s.k ≤ c3s.cnt 3 ∧ 3 ∉ c3s.newFrame ∧
        3 ∈ c3s.cacheFrame.map Prod.fst)) :=
  ⟨(c6_membership_promotion c3s_reach).1 1,
   (c6_membership_promotion c3s_reach).1 3⟩

/-- C8: on every reachable state and in-range frame id, `Remove` is a
normal no-op on an untracked frame, throws on a tracked non-evictable frame
leaving the state unchanged, and on a tracked evictable frame clears the
frame's count and history, removes it from both queues, and decrements the
evictable count by exactly one. -/
theorem c8_remove_semantics {nf kk : Nat} {s : LRUKReplacer}
    (h : RReach nf kk s) (f : Nat) (hr : f ≤ s.numFrames) :
    (s.cnt f = 0 → removeFrame s f = (RAResult.ok, s)) ∧
    (1 ≤ s.cnt f → s.evictable f = false →
      removeFrame s f = (RAResult.err, s)) ∧
    (1 ≤ s.cnt f → s.evictable f = true →
      ∃ s', removeFrame s f = (RAResult.ok, s') ∧ s'.cnt f = 0 ∧
        s'.hist f = [] ∧ f ∉ s'.newFrame ∧
        f ∉ s'.cacheFrame.map Prod.fst ∧ s'.currSize + 1 = s.currSize) := by
  have inv := reach_inv h
  have hnr : ¬ s.numFrames < f := by omega
  refine ⟨?_, ?_, ?_⟩
  · intro h0
    unfold removeFrame
    rw [if_neg hnr, if_pos h0]
  · intro h1 hev
    unfold removeFrame
    rw [if_neg hnr, if_neg (by omega), if_pos hev]
  · intro h1 hev
    have hevne : ¬ s.evictable f = false := by rw [hev]; simp
    by_cases hk : s.cnt f < s.k
    · have hf : f ∈ s.newFrame := inv.tracked_new f h1 hk
      have hnd := inv.new_nodup
      have hfc : f ∉ s.cacheFrame.map Prod.fst := inv.new_not_cache hf
      refine ⟨{ s with newFrame := s.newFrame.erase f,
                       cnt := upd s.cnt f 0,
                       hist := upd s.hist f [],
                       currSize := s.currSize - 1 },
        ?_, ?_, ?_, ?_, ?_, ?_⟩
      · unfold removeFrame
        rw [if_neg hnr, if_neg (by omega), if_neg hevne, if_pos hk]
      · exact upd_self _ _ _
      · exact upd_self _ _ _
      · exact hnd.not_mem_erase
      · exact hfc
      · dsimp only
        have e1 := length_filter_erase hf (fun g => s.evictable g)
        rw [hev] at e1
        simp only [if_true, reduceIte] at e1
        have hm : f ∈ s.newFrame.filter (fun g => s.evictable g) :=
          List.mem_filter.2 ⟨hf, hev⟩
        have hpos := List.length_pos.2 (List.ne_nil_of_mem hm)
        have hsz := inv.size_eq
        omega
    · have hfm : f ∈ s.cacheFrame.map Prod.fst :=
        inv.tracked_cache f (by omega)
      obtain ⟨q, hqm, hqf⟩ := List.mem_map.mp hfm
      have hfn : f ∉ s.newFrame := inv.cache_not_new hfm
      have hce : f ∉ (cacheErase f s.cacheFrame).map Prod.fst :=
        not_mem_map_cacheErase inv.cache_nodup hqm hqf
      refine ⟨{ s with cacheFrame := cacheErase f s.cacheFrame,
                       cnt := upd s.cnt f 0,
                       hist := upd s.hist f [],
                       currSize := s.currSize - 1 },
        ?_, ?_, ?_, ?_, ?_, ?_⟩
      · unfold removeFrame
        rw [if_neg hnr, if_neg (by omega), if_neg hevne, if_neg hk]
      · exact upd_self _ _ _
      · exact upd_self _ _ _
      · exact hfn
      · exact hce
      · dsimp only
        have e1 := length_filter_cacheErase inv.cache_nodup hqm hqf
          (fun p => s.evictable p.1)
        rw [hqf, hev] at e1
        simp only [if_true, reduceIte] at e1
        have hm : q ∈ s.cacheFrame.filter (fun p => s.evictable p.1) :=
          List.mem_filter.2 ⟨hqm, by rw [hqf]; exact hev⟩
        have hpos := List.length_pos.2 (List.ne_nil_of_mem hm)
        have hsz := inv.size_eq
        omega

/-- Witness for C8 at the concrete reachable scenario state with the
tracked evictable frame 3. -/
theorem c8_witness :
    (c3s.cnt 3 = 0 → removeFrame c3s 3 = (RAResult.ok, c3s)) ∧
    (1 ≤ c3s.cnt 3 → c3s.evictable 3 = false →
      removeFrame c3s 3 = (RAResult.err, c3s)) ∧
    (1 ≤ c3s.cnt 3 → c3s.evictable 3 = true →
      ∃ s', removeFrame c3s 3 = (RAResult.ok, s') ∧ s'.cnt 3 = 0 ∧
        s'.hist 3 = [] ∧ 3 ∉ s'.newFrame ∧
        3 ∉ s'.cacheFrame.map Prod.fst ∧ s'.currSize + 1 = c3s.currSize) :=
  c8_remove_semantics c3s_reach 3 (by decide)

end ReplacerClaims
